import Mathlib

/-!
Verification development for the SealPIR server core (`pir_server.cpp`).

The C++ server is shallowly embedded: pure helpers become Lean functions,
the mutable `PIRServer` object becomes an explicit `ServerState` record that
operations take and return, machine integers become `Nat` (with explicit
`% 2 ^ 32` where `uint32_t` wraparound matters), and operations that the C++
performs through unchecked indexing or `assert` become `Option`/error-coded
results.  Homomorphic-encryption backend operations (SEAL's evaluator) are
modelled, as the specification's testability section prescribes, by their
plaintext-arithmetic semantics with encryption as the identity; where a
claim does not depend on their meaning they stay abstract function
parameters.
-/

namespace SealPIR

/-- Error kinds named by the specification's error-handling design, together
with `assertFailed`, which models a failing C++ `assert` in the reference
source (the process aborts; in the embedding the operation reports
`assertFailed` and returns the unchanged state). -/
inductive PirError where
  | invalidArgument
  | incompatibleParameters
  | capacityExceeded
  | missingKey
  | malformedQuery
  | assertFailed
deriving DecidableEq

/-- Encryption parameters as observed by `pir_server.cpp`: the polynomial
modulus (identified by its degree `N`), the coefficient-modulus chain and the
plain modulus.  The SEAL `hash_block` that tags keys is a hash of exactly
these fields, so the parameter record itself serves as the version tag. -/
structure EncryptionParameters where
  polyModulus : Nat
  coeffModulus : List Nat
  plainModulus : Nat
deriving DecidableEq

/-- A stored Galois key: SEAL key material carries a `hash_block` parameter
tag, and a default-constructed `GaloisKeys` object carries no actual key
data (`hasData = false`). -/
structure GaloisKeyTagged where
  hashBlock : EncryptionParameters
  hasData : Bool
deriving DecidableEq

/-- The tag and (absent) data of a default-constructed SEAL `GaloisKeys`,
as produced by `std::map::operator[]` on a lookup miss. -/
def defaultGaloisKey : GaloisKeyTagged :=
  { hashBlock := { polyModulus := 0, coeffModulus := [], plainModulus := 0 }
    hasData := false }

/-- The mutable state of a `PIRServer` object: encryption parameters, PIR
parameters (`nvec` and `expansion_ratio`), the owned database `db_`, the
`is_db_preprocessed_` flag and the per-client `galoisKeys_` map (an
association list keyed by client id).  The plaintext type `P` and the key
type `K` are parameters of the embedding. -/
structure ServerState (P K : Type) where
  params : EncryptionParameters
  pirNvec : List Nat
  pirExpansionRatio : Nat
  db : List P
  isDbPreprocessed : Bool
  galoisKeys : List (Nat × K)
deriving DecidableEq

/-- Lookup in an association list, mirroring `std::map::operator[]`: on a
miss the map is extended with a default-constructed value, which is then
returned.  `PIRServer::expand_query` reads `galoisKeys_[client_id]` through
exactly this operation. -/
def cppMapGet {K : Type} (m : List (Nat × K)) (id : Nat) (dflt : K) :
    K × List (Nat × K) :=
  match m.lookup id with
  | some v => (v, m)
  | none => (dflt, m ++ [(id, dflt)])

/-- Overwrite-or-insert into an association list, mirroring
`std::map::operator[] = value`. -/
def assocSet {K : Type} (m : List (Nat × K)) (id : Nat) (v : K) :
    List (Nat × K) :=
  if (m.lookup id).isSome then m.map fun e => if e.1 = id then (id, v) else e
  else m ++ [(id, v)]

/-- `PIRServer::set_galois_key`: the incoming key's hash block is overwritten
with the current parameters' hash block and the key is stored for the client
id, replacing any previous entry. -/
def set_galois_key {P : Type} (cid : Nat) (galkey : GaloisKeyTagged)
    (s : ServerState P GaloisKeyTagged) : ServerState P GaloisKeyTagged :=
  { s with
    galoisKeys := assocSet s.galoisKeys cid { galkey with hashBlock := s.params } }

/-- `PIRServer::preprocess_database`: if the database is not yet marked
preprocessed, every stored plaintext is transformed to the frequency (NTT)
domain in place and the flag is set; otherwise nothing happens.  The NTT
transform itself is backend-supplied and stays an abstract function. -/
def preprocess_database {P K : Type} (ntt : P → P) (s : ServerState P K) :
    ServerState P K :=
  if s.isDbPreprocessed then s
  else { s with db := s.db.map ntt, isDbPreprocessed := true }

/-- `PIRServer::update_parameters`: two `assert`s require the polynomial
modulus and the coefficient-modulus chain to be unchanged; on success the
parameters are replaced, the preprocessed flag is cleared, and every stored
Galois key's hash block is overwritten with the new parameters' hash
block. -/
def update_parameters {P : Type} (newParams : EncryptionParameters)
    (newNvec : List Nat) (newExpansionRatio : Nat)
    (s : ServerState P GaloisKeyTagged) :
    Option PirError × ServerState P GaloisKeyTagged :=
  if newParams.polyModulus ≠ s.params.polyModulus then (some .assertFailed, s)
  else if newParams.coeffModulus ≠ s.params.coeffModulus then
    (some .assertFailed, s)
  else
    (none,
      { s with
        params := newParams
        pirNvec := newNvec
        pirExpansionRatio := newExpansionRatio
        isDbPreprocessed := false
        galoisKeys :=
          s.galoisKeys.map fun e => (e.1, { e.2 with hashBlock := newParams }) })

/-- The homomorphic-encryption backend operations that `generate_reply`
invokes, kept abstract: NTT transforms on plaintexts and ciphertexts,
ciphertext-plaintext multiplication, ciphertext addition, the
ciphertext-to-plaintexts decomposition, and query expansion (which consumes
the client's Galois key). -/
structure HEBackend (P C K : Type) where
  nttP : P → P
  nttC : C → C
  inttC : C → C
  mulPlain : C → P → C
  addC : C → C → C
  decompose : C → List P
  expandFn : K → C → Nat → List C
  zeroP : P
  defaultKey : K

/-- Fix a list of plaintexts to exactly `er` entries, padding with the
zero plaintext: `generate_reply` reads `expansion_ratio` polynomials per
decomposed ciphertext out of a zero-initialised buffer
(`allocate_zero_poly`), regardless of how many the decomposition wrote. -/
def padTake {P : Type} (er : Nat) (z : P) (l : List P) : List P :=
  (l ++ List.replicate er z).take er

/-- The multiply-accumulate reduction of one dimension in
`PIRServer::generate_reply` (lines 182-190): for each `k` below the reduced
`product`, start from `expanded_query[0] * cur[k]` and add
`expanded_query[j] * cur[k + j * product]` for `j = 1 .. n-1`.  Vector
indexing is fallible, mirroring the unchecked C++ accesses. -/
def dimReduce {P C : Type} (mul : C → P → C) (add : C → C → C) (eq : List C)
    (cur : List P) (product n : Nat) : Option (List C) :=
  (List.range product).mapM fun k => do
    let c0 ← eq[0]?
    let p0 ← cur[k]?
    (List.range (n - 1)).foldlM
      (fun acc jm1 => do
        let cj ← eq[jm1 + 1]?
        let pj ← cur[k + (jm1 + 1) * product]?
        pure (add acc (mul cj pj)))
      (mul c0 p0)

/-- The per-dimension loop of `PIRServer::generate_reply`: expand the
dimension's query ciphertext, NTT the expansion, NTT the current virtual
database unless this is dimension 0 of a preprocessed database, reduce, and
either return (last dimension) or decompose every result ciphertext into
`expansion_ratio` plaintexts to seed the next dimension.  An exhausted
dimension list models reaching the C++ `assert(0)`. -/
def genLoop {P C K : Type} (bk : HEBackend P C K) (er : Nat) (gk : K)
    (query : List C) :
    List Nat → Nat → Nat → List P → Bool → Option (List C)
  | [], _, _, _, _ => none
  | n :: rest, i, product, cur, flag => do
    let qi ← query[i]?
    let eq := (bk.expandFn gk qi n).map bk.nttC
    let cur2 := if flag = false ∨ 0 < i then cur.map bk.nttP else cur
    let product2 := product / n
    let inter ← dimReduce bk.mulPlain bk.addC eq cur2 product2 n
    let interOut := inter.map bk.inttC
    if rest.isEmpty then some interOut
    else
      genLoop bk er gk query rest (i + 1) (product2 * er)
        (interOut.flatMap fun c => padTake er bk.zeroP (bk.decompose c)) flag

/-- `PIRServer::generate_reply`: the state effects of dimension 0 are made
explicit — the Galois-key lookup `galoisKeys_[client_id]` may insert a
default key, and if the database is not preprocessed its plaintexts are
NTT-transformed in place through the aliased `cur` pointer (the flag is not
set).  With an empty `nvec` the loop body never runs and `assert(0)` is
reached; if the query has no ciphertext for dimension 0, the unchecked
`query[0]` access fails before any state is touched. -/
def generate_reply {P C K : Type} (bk : HEBackend P C K) (query : List C)
    (cid : Nat) (s : ServerState P K) : Option (List C) × ServerState P K :=
  let product := s.pirNvec.prod
  match s.pirNvec with
  | [] => (none, s)
  | n :: rest =>
    match query[0]? with
    | none => (none, s)
    | some _ =>
      let kk := cppMapGet s.galoisKeys cid bk.defaultKey
      let db' := if s.isDbPreprocessed = false then s.db.map bk.nttP else s.db
      (genLoop bk s.pirExpansionRatio kk.1 query (n :: rest) 0 product s.db
          s.isDbPreprocessed,
        { s with galoisKeys := kk.2, db := db' })

/-- A concrete backend instance on natural numbers, used to evaluate the
embedded operations at specific inputs. -/
def natBackend : HEBackend Nat Nat GaloisKeyTagged where
  nttP := (· + 1)
  nttC := (· + 10)
  inttC := (· + 100)
  mulPlain := (· * ·)
  addC := (· + ·)
  decompose := fun c => [c]
  expandFn := fun _ c n => List.replicate n c
  zeroP := 0
  defaultKey := defaultGaloisKey

/-- Concrete encryption parameters used for evaluations. -/
def evalParams : EncryptionParameters :=
  { polyModulus := 4, coeffModulus := [17], plainModulus := 5 }

/-- A concrete server state with a one-dimensional database of one plaintext
and an empty key store. -/
def evalState : ServerState Nat GaloisKeyTagged where
  params := evalParams
  pirNvec := [1]
  pirExpansionRatio := 1
  db := [7]
  isDbPreprocessed := false
  galoisKeys := []

/-- A concrete configured server state with a registered key, used to
evaluate `update_parameters`. -/
def evalState2 : ServerState Nat GaloisKeyTagged where
  params := evalParams
  pirNvec := [2, 2]
  pirExpansionRatio := 3
  db := [1, 2]
  isDbPreprocessed := true
  galoisKeys := [(1, { hashBlock := evalParams, hasData := true })]

/-- A concrete server state whose matrix capacity (a single plaintext) is
exceeded by a two-element byte database. -/
def evalState3 : ServerState (List Nat) GaloisKeyTagged where
  params := evalParams
  pirNvec := [1]
  pirExpansionRatio := 1
  db := [[2]]
  isDbPreprocessed := true
  galoisKeys := []

/-- A concrete server state with room for two plaintexts, used to evaluate
the byte-encoding `set_database`. -/
def evalState4 : ServerState (List Nat) GaloisKeyTagged where
  params := evalParams
  pirNvec := [2]
  pirExpansionRatio := 1
  db := []
  isDbPreprocessed := true
  galoisKeys := []

/-- Ceiling base-2 logarithm by linear search with explicit fuel, the value
of C++ `ceil(log2(n))`: the least `k` with `n ≤ 2 ^ k` (and `0` for
`n = 0`). -/
def clog2Aux : Nat → Nat → Nat → Nat
  | 0, k, _ => k
  | fuel + 1, k, n => if n ≤ 2 ^ k then k else clog2Aux fuel (k + 1) n

/-- Ceiling base-2 logarithm, `ceil(log2 n)`. -/
def clog2 (n : Nat) : Nat := clog2Aux n 0 n

/-- Floor base-2 logarithm with explicit fuel, the value of the C++
`int logqj = log2(qj)` truncation. -/
def log2Aux : Nat → Nat → Nat
  | 0, _ => 0
  | fuel + 1, n => if n ≤ 1 then 0 else 1 + log2Aux fuel (n / 2)

/-- Floor base-2 logarithm, `floor(log2 n)` (and `0` for `n = 0`). -/
def log2floor (n : Nat) : Nat := log2Aux n n

/-- Ceiling division `ceil(a / b)`, computed by the integer idiom
`(a + b - 1) / b` that the repository's helpers use. -/
def ceilDiv (a b : Nat) : Nat := (a + b - 1) / b

/-- Modelled from the spec: `coefficients_per_element` lives in `pir.cpp`,
which is not under `src/`; section 4.1 derives it from `logtp` and the
element size — each coefficient holds a `logtp`-bit group of the
`8 · ele_size` element bits, so `ceil(8 · ele_size / logtp)` coefficients
represent one element. -/
def coefficients_per_element (logtp ele_size : Nat) : Nat :=
  ceilDiv (8 * ele_size) logtp

/-- Modelled from the spec: `elements_per_ptxt` lives in `pir.cpp`, which is
not under `src/`; a plaintext's `N` coefficients hold
`floor(N / coefficients_per_element)` whole elements. -/
def elements_per_ptxt (logtp N ele_size : Nat) : Nat :=
  N / coefficients_per_element logtp ele_size

/-- Modelled from the spec: `plaintexts_per_db` lives in `pir.cpp`, which is
not under `src/`; the number of plaintexts needed for all elements is
`ceil(ele_num / elements_per_ptxt)`. -/
def plaintexts_per_db (logtp N ele_num ele_size : Nat) : Nat :=
  ceilDiv ele_num (elements_per_ptxt logtp N ele_size)

/-- The bytes of a buffer read as one little-endian natural number, giving
the contiguous bit stream that the byte packer slices. -/
def bytesToNat : List Nat → Nat
  | [] => 0
  | b :: bs => b % 256 + 256 * bytesToNat bs

/-- Modelled from the spec: `bytes_to_coeffs` lives in `pir.cpp`, which is
not under `src/`; section 4.1 and section 6 specify slicing the byte stream
into `logtp`-bit groups in stream order, one coefficient per group, giving
`ceil(8 · len / logtp)` coefficients each below `2 ^ logtp`. -/
def bytes_to_coeffs (logtp : Nat) (bytes : List Nat) : List Nat :=
  (List.range (ceilDiv (8 * bytes.length) logtp)).map fun r =>
    (bytesToNat bytes >>> (r * logtp)) % 2 ^ logtp

/-- The plaintext-building loop of the byte-encoding
`PIRServer::set_database` (lines 86-116): for up to `total` iterations,
stop early once `db_size ≤ offset`, otherwise slice the next
`process_bytes` bytes into coefficients, check the `used ≤ coeff_per_ptxt`
assertion, pad the coefficient vector to `N` entries with the value 1 and
emit it as one plaintext. -/
def encodeLoop (logtp bytes_per_ptxt coeff_per_ptxt N db_size : Nat)
    (bytes : List Nat) : Nat → Nat → Option (List (List Nat))
  | 0, _ => some []
  | fuel + 1, offset =>
    if db_size ≤ offset then some []
    else
      let process_bytes :=
        if db_size < offset + bytes_per_ptxt then db_size - offset
        else bytes_per_ptxt
      let coefficients := bytes_to_coeffs logtp ((bytes.drop offset).take process_bytes)
      let used := coefficients.length
      if used ≤ coeff_per_ptxt then
        (encodeLoop logtp bytes_per_ptxt coeff_per_ptxt N db_size bytes fuel
            (offset + process_bytes)).map
          fun restPts => (coefficients ++ List.replicate (N - used) 1) :: restPts
      else none

/-- The byte-encoding `PIRServer::set_database`: computes `logtp`, `N` and
the required plaintext count, checks the `total ≤ matrix_plaintexts`
assertion (capacity) and the `coeff_per_ptxt ≤ N` assertion, runs the
plaintext-building loop, appends all-1 padding plaintexts until the matrix
has exactly `product(nvec)` entries, and installs the result as the new
database with the preprocessed flag cleared (the trailing
`current_plaintexts ≤ total` assertion cannot fail, the loop being bounded
by `total`).  A failing assertion reports `assertFailed` with the state
unchanged. -/
def set_database_bytes {K : Type} (bytes : List Nat) (ele_num ele_size : Nat)
    (s : ServerState (List Nat) K) : Option PirError × ServerState (List Nat) K :=
  let logtp := clog2 s.params.plainModulus
  let N := s.params.polyModulus
  let total := plaintexts_per_db logtp N ele_num ele_size
  let matrix_plaintexts := s.pirNvec.prod
  if ¬ total ≤ matrix_plaintexts then (some .assertFailed, s)
  else
    let ele_per_ptxt := elements_per_ptxt logtp N ele_size
    let bytes_per_ptxt := ele_per_ptxt * ele_size
    let db_size := ele_num * ele_size
    let coeff_per_ptxt := ele_per_ptxt * coefficients_per_element logtp ele_size
    if ¬ coeff_per_ptxt ≤ N then (some .assertFailed, s)
    else
      match encodeLoop logtp bytes_per_ptxt coeff_per_ptxt N db_size bytes total 0 with
      | none => (some .assertFailed, s)
      | some pts =>
        (none,
          { s with
            db := pts ++ List.replicate (matrix_plaintexts - pts.length)
              (List.replicate N 1)
            isDbPreprocessed := false })

/-- `PIRServer::decompose_to_plaintexts_ptr`: with `exp` the bit width
`ceil(log2(plainModMinusOne + 1))`, walk every ciphertext polynomial, every
modulus `q_j` of the chain and every decomposition index
`k < (logqj + exp - 1) / exp`, and write, one word at a time through the
output pointer, the coefficients `(c >> (k · exp)) & (t - 1)` of the
polynomial's slice for modulus `j`.  The result is the flat buffer of words
in write order. -/
def decompose_to_plaintexts_ptr (t cc : Nat) (coeffMod : List Nat)
    (encrypted : List (List Nat)) : List Nat :=
  let exp := clog2 (t - 1 + 1)
  encrypted.foldl
    (fun buf poly =>
      (List.range coeffMod.length).foldl
        (fun buf2 j =>
          let logqj := log2floor (coeffMod.getD j 0)
          let expansion_ratio := (logqj + exp - 1) / exp
          (List.range expansion_ratio).foldl
            (fun buf3 k =>
              (List.range cc).foldl
                (fun buf4 mi =>
                  buf4 ++ [(poly.getD (mi + j * cc) 0 >>> (k * exp)) &&& (t - 1)])
                buf3)
            buf2)
        buf)
    []

/-- A plaintext-arithmetic stand-in ciphertext, as the specification's
testability section prescribes for checking `QueryExpander`: encryption is
the identity, so a ciphertext is a polynomial of degree below `N` over the
plain modulus `t`, an element of `Z_t[x]/(x^N + 1)` stored as its `N`
coefficients. -/
abbrev Poly (N t : Nat) : Type := Fin N → ZMod t

/-- The zero polynomial (also a default-constructed ciphertext's value). -/
def zeroPoly (N t : Nat) : Poly N t := fun _ => 0

/-- Coefficient-wise sum, the stand-in for `Evaluator::add`. -/
def polyAdd {N t : Nat} (p q : Poly N t) : Poly N t := fun k => p k + q k

/-- Scaling by a constant, the stand-in for `Evaluator::multiply_plain` by a
constant plaintext such as `Plaintext two("2")`. -/
def mulConst {N t : Nat} (c : ZMod t) (p : Poly N t) : Poly N t := fun k => c * p k

/-- The monomial `x^e` reduced in `Z_t[x]/(x^N + 1)`: since `x^N = -1`, the
exponent lives modulo `2N` with a sign flip on the upper half. -/
def xpow (N t : Nat) (e : Nat) : Poly N t := fun k =>
  if k.val = e % (2 * N) then 1
  else if k.val + N = e % (2 * N) then -1
  else 0

/-- The constant polynomial `c`. -/
def constPoly (N t : Nat) (c : ZMod t) : Poly N t := fun k =>
  if k.val = 0 then c else 0

/-- `PIRServer::multiply_power_of_X` under the stand-in: the negacyclic
coefficient shift `negacyclic_shift_poly_coeffmod`, i.e. multiplication by
`x^index` in `Z_t[x]/(x^N + 1)` — destination coefficient `k` reads source
coefficient `(k - index) mod 2N`, negated on wraparound past `N`. -/
def multiply_power_of_X {N t : Nat} (index : Nat) (p : Poly N t) : Poly N t := fun k =>
  let j := (k.val + 2 * N - index % (2 * N)) % (2 * N)
  if h : j < N then p ⟨j, h⟩
  else if h2 : j - N < N then -(p ⟨j - N, h2⟩)
  else 0

/-- `Evaluator::apply_galois` under the stand-in: the substitution
`x ↦ x^elt`, sending the monomial `x^j` to `± x^(j·elt mod N)` according to
the reduction of `j·elt` modulo `2N`. -/
def apply_galois {N t : Nat} (elt : Nat) (p : Poly N t) : Poly N t := fun k =>
  ∑ j : Fin N,
    (if (j.val * elt) % (2 * N) = k.val then p j
     else if (j.val * elt) % (2 * N) = k.val + N then -(p j)
     else 0)

/-- One doubling level of `PIRServer::expand_query` (lines 256-273): child
`a` is `temp[a] + galois(temp[a])`, child `a + size` is
`x^index_raw · temp[a] + x^index · galois(temp[a])`. -/
def expandLevelStep {N t : Nat} (elt index_raw index : Nat)
    (temp : List (Poly N t)) : List (Poly N t) :=
  temp.map (fun c => polyAdd c (apply_galois elt c))
    ++ temp.map (fun c =>
      polyAdd (multiply_power_of_X index_raw c)
        (multiply_power_of_X index (apply_galois elt c)))

/-- The first expansion loop of `expand_query`: the iteration count comes in
as the `uint32_t` value `logm - 1` (which underflows for `logm = 0`), and
each level reads `galois_elts[i]` — an unchecked access, fallible in the
embedding. -/
def expandLoop (N t : Nat) (galois_elts : List Nat) :
    Nat → Nat → List (Poly N t) → Option (List (Poly N t))
  | 0, _, temp => some temp
  | fuel + 1, i, temp => do
    let elt ← galois_elts[i]?
    let index_raw := 2 * N - 2 ^ i
    let index := (index_raw * elt) % (2 * N)
    expandLoop N t galois_elts fuel (i + 1) (expandLevelStep elt index_raw index temp)

/-- The special-cased last expansion level of `expand_query` (lines
275-289): entries at positions `≥ m - 2^(logm-1)` are corner slots, doubled
by a plain multiply-by-2, and their second children stay the
default-constructed (zero) ciphertext. -/
def expandLastStep {N t : Nat} (m logm elt index_raw index : Nat)
    (temp : List (Poly N t)) : List (Poly N t) :=
  (List.range temp.length).map (fun a =>
      if m - 2 ^ (logm - 1) ≤ a then mulConst 2 (temp.getD a (zeroPoly N t))
      else polyAdd (temp.getD a (zeroPoly N t))
        (apply_galois elt (temp.getD a (zeroPoly N t))))
    ++ (List.range temp.length).map (fun a =>
      if m - 2 ^ (logm - 1) ≤ a then zeroPoly N t
      else polyAdd (multiply_power_of_X index_raw (temp.getD a (zeroPoly N t)))
        (multiply_power_of_X index (apply_galois elt (temp.getD a (zeroPoly N t)))))

/-- `PIRServer::expand_query` under the plaintext stand-in: `logm = ceil(log2 m)`
levels of doubling with automorphism exponents `(N + 2^i) / 2^i`, the last
level special-cased, and the result truncated to its first `m` entries.
The first loop's trip count is the `uint32_t` difference `logm - 1`, and the
`galois_elts` accesses are unchecked, so `m = 1` (`logm = 0`) drives the
loop through an out-of-bounds read and the whole call fails. -/
def expand_query (N t : Nat) (encrypted : Poly N t) (m : Nat) :
    Option (List (Poly N t)) := do
  let logm := clog2 m
  let galois_elts := (List.range logm).map fun i => (N + 2 ^ i) / 2 ^ i
  let count := (logm + 4294967295) % 4294967296
  let temp ← expandLoop N t galois_elts count 0 [encrypted]
  let eltLast ← galois_elts[logm - 1]?
  let index_raw := 2 * N - 2 ^ (logm - 1)
  let index := (index_raw * eltLast) % (2 * N)
  some ((expandLastStep m logm eltLast index_raw index temp).take m)

/-- The list entry maintained by the expansion invariant: after `k` levels,
slot `a` holds `2^k · x^(idx - a)` when `idx ≡ a (mod 2^k)` and `0`
otherwise (the exponent is represented as `2N + idx - a`, congruent to
`idx - a` modulo `2N`). -/
def entryPoly (N t idx k a : Nat) : Poly N t :=
  if idx % 2 ^ k = a % 2 ^ k then
    mulConst ((2 ^ k : Nat) : ZMod t) (xpow N t (2 * N + idx - a))
  else zeroPoly N t

/-- The full list tracked by the expansion invariant after `k` levels. -/
def expectedList (N t idx k : Nat) : List (Poly N t) :=
  (List.range (2 ^ k)).map (entryPoly N t idx k)

/-! ## Theorems -/

/-- Auxiliary: `List.mapM` over `Option` succeeds pointwise. -/
theorem list_mapM_eq_map {α β : Type} (f : α → Option β) (g : α → β)
    (l : List α) (h : ∀ a ∈ l, f a = some (g a)) : l.mapM f = some (l.map g) := by
  induction l with
  | nil => rfl
  | cons a l ih =>
    simp only [List.mapM_cons, h a (by simp), List.map_cons,
      ih fun a ha => h a (by simp [ha])]
    rfl

/-- Auxiliary: `List.foldlM` over `Option` succeeds pointwise. -/
theorem list_foldlM_eq_foldl {α β : Type} (f : β → α → Option β)
    (g : β → α → β) (l : List α) (init : β)
    (h : ∀ b a, a ∈ l → f b a = some (g b a)) :
    l.foldlM f init = some (l.foldl g init) := by
  induction l generalizing init with
  | nil => rfl
  | cons a l ih =>
    simp only [List.foldlM_cons, h init a (by simp), List.foldl_cons]
    exact ih _ fun b a ha => h b a (by simp [ha])

/-- Auxiliary: a left fold of additions over `List.range` is a
`Finset.range` sum added to the seed. -/
theorem foldl_add_range {C : Type} [AddCommMonoid C] (g : Nat → C) (init : C)
    (m : Nat) :
    List.foldl (fun acc j => acc + g j) init (List.range m)
      = init + ∑ j ∈ Finset.range m, g j := by
  induction m with
  | zero => simp
  | succ m ih =>
    rw [List.range_succ, List.foldl_append, ih, Finset.sum_range_succ]
    simp [add_assoc]

/-- C6: `preprocess_database` is idempotent — running it twice yields the
same observable database state (plaintexts and preprocessed flag) as running
it once — and on a state already marked preprocessed it is a no-op. -/
theorem preprocess_database_idempotent {P K : Type} (ntt : P → P)
    (s : ServerState P K) :
    preprocess_database ntt (preprocess_database ntt s)
        = preprocess_database ntt s ∧
      preprocess_database ntt { s with isDbPreprocessed := true }
        = { s with isDbPreprocessed := true } := by
  constructor
  · unfold preprocess_database
    by_cases h : s.isDbPreprocessed <;> simp [h]
  · simp [preprocess_database]

/-- C7 (amended): a parameter update whose polynomial modulus or
coefficient-modulus chain differs from the current configuration fails the
C++ `assert` (modelled as an `assertFailed` error, not a recoverable
`IncompatibleParameters` error) and leaves the prior state intact; an update
changing only the plaintext modulus or the PIR shape succeeds, clears the
preprocessed flag, and re-tags every stored Galois key with the new
parameter version. -/
theorem update_parameters_behavior {P : Type} (newParams : EncryptionParameters)
    (nv : List Nat) (er : Nat) (s : ServerState P GaloisKeyTagged) :
    (newParams.polyModulus ≠ s.params.polyModulus ∨
        newParams.coeffModulus ≠ s.params.coeffModulus →
      update_parameters newParams nv er s = (some PirError.assertFailed, s)) ∧
    (newParams.polyModulus = s.params.polyModulus →
      newParams.coeffModulus = s.params.coeffModulus →
      ∃ s', update_parameters newParams nv er s = (none, s') ∧
        s'.isDbPreprocessed = false ∧ s'.params = newParams ∧
        s'.pirNvec = nv ∧ s'.pirExpansionRatio = er ∧ s'.db = s.db ∧
        s'.galoisKeys
          = s.galoisKeys.map fun e => (e.1, { e.2 with hashBlock := newParams })) := by
  constructor
  · intro h
    unfold update_parameters
    rcases h with h | h
    · simp [h]
    · by_cases h2 : newParams.polyModulus = s.params.polyModulus <;> simp [h, h2]
  · intro h1 h2
    have hok : update_parameters newParams nv er s =
        (none,
          { s with
            params := newParams
            pirNvec := nv
            pirExpansionRatio := er
            isDbPreprocessed := false
            galoisKeys := s.galoisKeys.map fun e =>
              (e.1, { e.2 with hashBlock := newParams }) }) := by
      simp [update_parameters, h1, h2]
    exact ⟨_, hok, rfl, rfl, rfl, rfl, rfl, rfl⟩

/-- Witness for C7: the two branches of `update_parameters_behavior` at
concrete inputs — a changed polynomial degree is rejected with the state
intact, and a plain-modulus-only change succeeds, clears the flag and
re-tags the stored key. -/
theorem update_parameters_behavior_witness :
    (update_parameters { polyModulus := 8, coeffModulus := [17], plainModulus := 5 }
        [2] 1 evalState2 = (some PirError.assertFailed, evalState2)) ∧
    (∃ s', update_parameters
        { polyModulus := 4, coeffModulus := [17], plainModulus := 7 } [3] 2 evalState2
          = (none, s') ∧
      s'.isDbPreprocessed = false ∧
      s'.params = { polyModulus := 4, coeffModulus := [17], plainModulus := 7 } ∧
      s'.pirNvec = [3] ∧ s'.pirExpansionRatio = 2 ∧ s'.db = evalState2.db ∧
      s'.galoisKeys = evalState2.galoisKeys.map fun e =>
        (e.1, { e.2 with
          hashBlock := { polyModulus := 4, coeffModulus := [17], plainModulus := 7 } })) :=
  ⟨(update_parameters_behavior _ [2] 1 evalState2).1 (Or.inl (by decide)),
   (update_parameters_behavior _ [3] 2 evalState2).2 (by decide) (by decide)⟩

/-- Counterexample for C7 as stated: at a concrete structural parameter
change the reported error is the assertion failure, not
`IncompatibleParameters`. -/
theorem update_parameters_counterexample :
    (update_parameters { polyModulus := 8, coeffModulus := [17], plainModulus := 5 }
        [2] 1 evalState2).1 ≠ some PirError.incompatibleParameters := by
  decide

/-- C2 evaluation at the failing input: looking up an unregistered client id
in the key map silently creates and stores a default (data-less) key, and
`generate_reply` proceeds to produce a reply instead of failing with
`MissingKey`. -/
theorem expand_query_missing_key_evaluation :
    cppMapGet ([] : List (Nat × GaloisKeyTagged)) 7 defaultGaloisKey
        = (defaultGaloisKey, [(7, defaultGaloisKey)]) ∧
      (generate_reply natBackend [3] 7 evalState).1.isSome = true ∧
      (generate_reply natBackend [3] 7 evalState).2.galoisKeys
        = [(7, defaultGaloisKey)] := by
  decide

/-- C8: the multiply-accumulate loop of `generate_reply` computes, for every
column `k` below the reduced `product`, the inner product of the `n`
expanded-query ciphertexts with the plaintexts at positions
`k + j·product`, accumulated by plaintext-multiply-then-add. -/
theorem generate_reply_inner_product {P C : Type} [AddCommMonoid C]
    (mul : C → P → C) (eq : List C) (cur : List P) (product n : Nat)
    (c₀ : C) (p₀ : P) (hn : 1 ≤ n) (heq : n ≤ eq.length)
    (hcur : n * product ≤ cur.length) :
    dimReduce mul (· + ·) eq cur product n =
      some ((List.range product).map fun k =>
        ∑ j ∈ Finset.range n, mul (eq.getD j c₀) (cur.getD (k + j * product) p₀)) := by
  obtain ⟨m, rfl⟩ : ∃ m, n = m + 1 := ⟨n - 1, by omega⟩
  unfold dimReduce
  simp only [Nat.add_sub_cancel]
  apply list_mapM_eq_map
  intro k hk
  rw [List.mem_range] at hk
  have h0e : (0 : Nat) < eq.length := by omega
  have hkc : k < cur.length := by
    have h1p : 1 * product ≤ (m + 1) * product :=
      Nat.mul_le_mul_right product (by omega)
    rw [one_mul] at h1p
    omega
  have hidx : ∀ jm1 ∈ List.range m,
      (eq[jm1 + 1]? = some (eq.getD (jm1 + 1) c₀)) ∧
        cur[k + (jm1 + 1) * product]?
          = some (cur.getD (k + (jm1 + 1) * product) p₀) := by
    intro jm1 hj
    rw [List.mem_range] at hj
    have h1 : jm1 + 1 < eq.length := by omega
    have h2 : k + (jm1 + 1) * product < cur.length := by
      have hA : (jm1 + 1) * product ≤ m * product :=
        Nat.mul_le_mul_right product (by omega)
      have hB : (m + 1) * product = m * product + product := by ring
      omega
    exact ⟨by rw [List.getElem?_eq_getElem h1, List.getD_eq_getElem _ _ h1],
      by rw [List.getElem?_eq_getElem h2, List.getD_eq_getElem _ _ h2]⟩
  rw [List.getElem?_eq_getElem h0e, List.getElem?_eq_getElem hkc]
  simp only [Option.bind_eq_bind, Option.some_bind]
  rw [list_foldlM_eq_foldl _
      (fun acc jm1 => acc + mul (eq.getD (jm1 + 1) c₀)
        (cur.getD (k + (jm1 + 1) * product) p₀)) _ _
      (fun b jm1 hj => by
        simp only [Option.pure_def, Option.bind_eq_bind, (hidx jm1 hj).1,
          (hidx jm1 hj).2, Option.some_bind])]
  congr 1
  rw [foldl_add_range, Finset.sum_range_succ', add_comm]
  congr 1
  have hk0 : k + 0 * product = k := by ring
  rw [hk0, List.getD_eq_getElem eq c₀ h0e, List.getD_eq_getElem cur p₀ hkc]

/-- Auxiliary for C9: `genLoop` only reads query positions below
`i + dims.length`, so truncating the query there changes nothing. -/
theorem genLoop_take {P C K : Type} (bk : HEBackend P C K) (er : Nat) (gk : K)
    (query : List C) (L : Nat) :
    ∀ (dims : List Nat) (i product : Nat) (cur : List P) (flag : Bool),
      i + dims.length ≤ L →
      genLoop bk er gk (query.take L) dims i product cur flag
        = genLoop bk er gk query dims i product cur flag := by
  intro dims
  induction dims with
  | nil => intro i product cur flag h; rfl
  | cons n rest ih =>
    intro i product cur flag h
    simp only [List.length_cons] at h
    simp only [genLoop]
    rw [List.getElem?_take_of_lt (show i < L by omega)]
    cases hq : query[i]? with
    | none => rfl
    | some qi =>
      simp only [Option.bind_eq_bind, Option.some_bind]
      cases hd : dimReduce bk.mulPlain bk.addC ((bk.expandFn gk qi n).map bk.nttC)
          (if flag = false ∨ 0 < i then cur.map bk.nttP else cur) (product / n) n with
      | none => rfl
      | some inter =>
        simp only [Option.some_bind]
        cases hre : rest.isEmpty with
        | true => simp [hre]
        | false =>
          simp only [hre, Bool.false_eq_true, if_false]
          exact ih (i + 1) _ _ flag (by omega)

/-- C9 (amended): `generate_reply` performs no dimension-count validation —
query ciphertexts beyond the first `len(nvec)` are ignored, so a query with
extra ciphertexts produces exactly the same reply and state as its
truncation to `len(nvec)` entries. -/
theorem generate_reply_ignores_extra_query {P C K : Type}
    (bk : HEBackend P C K) (query : List C) (cid : Nat) (s : ServerState P K) :
    generate_reply bk (query.take s.pirNvec.length) cid s
      = generate_reply bk query cid s := by
  unfold generate_reply
  cases hv : s.pirNvec with
  | nil => simp
  | cons n rest =>
    simp only [hv]
    rw [List.getElem?_take_of_lt (by simp)]
    cases hq : query[0]? with
    | none => rfl
    | some q0 =>
      simp only
      rw [genLoop_take bk s.pirExpansionRatio _ query (n :: rest).length
        (n :: rest) 0 (n :: rest).prod s.db s.isDbPreprocessed (by simp)]

/-- Counterexample for C9 as stated: a query with two ciphertexts against a
one-dimensional configuration does not fail at all — the extra ciphertext
is ignored and a reply is produced, instead of a `MalformedQuery` error. -/
theorem generate_reply_no_dimension_check :
    ([5, 6] : List Nat).length ≠ evalState.pirNvec.length ∧
      (generate_reply natBackend [5, 6] 0 evalState).1 ≠ none := by
  decide

/-- C10: calling `generate_reply` while the preprocessed flag is false
NTT-transforms every stored database plaintext in place without setting the
flag, so the database state is mutated and a later `preprocess_database`
applies the forward transform to the already-transformed plaintexts a
second time. -/
theorem generate_reply_unpreprocessed_effect {P C K : Type}
    (bk : HEBackend P C K) (query : List C) (cid : Nat) (s : ServerState P K)
    (hflag : s.isDbPreprocessed = false) (hnv : s.pirNvec ≠ [])
    (hq : query ≠ []) :
    (generate_reply bk query cid s).2.db = s.db.map bk.nttP ∧
      (generate_reply bk query cid s).2.isDbPreprocessed = false ∧
      (preprocess_database bk.nttP (generate_reply bk query cid s).2).db
        = (s.db.map bk.nttP).map bk.nttP := by
  obtain ⟨n, rest, hv⟩ : ∃ n rest, s.pirNvec = n :: rest := by
    cases hvv : s.pirNvec with
    | nil => exact absurd hvv hnv
    | cons a b => exact ⟨a, b, rfl⟩
  obtain ⟨q0, qs, rfl⟩ : ∃ q0 qs, query = q0 :: qs := by
    cases query with
    | nil => exact absurd rfl hq
    | cons a b => exact ⟨a, b, rfl⟩
  unfold generate_reply
  simp only [hv, hflag, List.getElem?_cons_zero]
  refine ⟨by simp, by simp [hflag], ?_⟩
  simp [preprocess_database, hflag]

/-- Witness for C10: the database-mutation effect evaluated on a concrete
unpreprocessed state. -/
theorem generate_reply_unpreprocessed_effect_witness :
    (generate_reply natBackend [3] 0 evalState).2.db
        = evalState.db.map natBackend.nttP ∧
      (generate_reply natBackend [3] 0 evalState).2.isDbPreprocessed = false ∧
      (preprocess_database natBackend.nttP
          (generate_reply natBackend [3] 0 evalState).2).db
        = (evalState.db.map natBackend.nttP).map natBackend.nttP :=
  generate_reply_unpreprocessed_effect natBackend [3] 0 evalState (by decide)
    (by decide) (by decide)

/-- Auxiliary: a left fold whose step appends a block is a `flatMap`. -/
theorem foldl_acc_append {α β : Type} (g : List β → α → List β)
    (h : α → List β) (hg : ∀ acc x, g acc x = acc ++ h x) :
    ∀ (l : List α) (init : List β), l.foldl g init = init ++ l.flatMap h := by
  intro l
  induction l with
  | nil => intro init; simp
  | cons a l ih =>
    intro init
    rw [List.foldl_cons, hg, ih, List.flatMap_cons, List.append_assoc]

/-- Auxiliary: a left fold appending one word at a time appends a `map`. -/
theorem foldl_acc_words {β : Type} (w : Nat → β) (cc : Nat) (init : List β) :
    (List.range cc).foldl (fun b mi => b ++ [w mi]) init
      = init ++ (List.range cc).map w := by
  rw [foldl_acc_append _ (fun mi => [w mi]) (fun _ _ => rfl) (List.range cc) init,
    (List.map_eq_flatMap w (List.range cc)).symm]

/-- Auxiliary: mapping over indices with a default that is never reached is
mapping over the list. -/
theorem range_map_getD {α β : Type} (g : α → β) (d : α) :
    ∀ l : List α, (List.range l.length).map (fun j => g (l.getD j d)) = l.map g := by
  intro l
  induction l with
  | nil => rfl
  | cons a l ih =>
    rw [List.length_cons, List.range_succ_eq_map, List.map_cons, List.map_map,
      List.map_cons]
    have htail : List.map ((fun j => g ((a :: l).getD j d)) ∘ Nat.succ)
        (List.range l.length) = List.map g l := by
      rw [← ih]
      apply List.map_congr_left
      intro j hj
      rfl
    rw [htail]
    rfl

/-- Auxiliary: pulling a common right factor out of a list sum. -/
theorem list_sum_map_mul_right {α : Type} (f : α → Nat) (r : Nat) :
    ∀ l : List α, (l.map fun i => f i * r).sum = (l.map f).sum * r := by
  intro l
  induction l with
  | nil => simp
  | cons a l ih => simp [ih, Nat.add_mul]

/-- C5 (amended): the bit-shift decomposer emits, for each constituent
polynomial and each modulus `q_j` of the chain, exactly
`ratio_j = (logq_j + exp - 1) div exp` (integer floor division, that is
`ceil(logq_j / exp)`) plaintext polynomials of `coeff_count` words each,
whose coefficients are the ciphertext coefficients right-shifted by
`0, exp, 2·exp, …` bits and masked with `t - 1`. -/
theorem decompose_to_plaintexts_ptr_structure (t cc : Nat)
    (coeffMod : List Nat) (encrypted : List (List Nat)) :
    decompose_to_plaintexts_ptr t cc coeffMod encrypted
        = encrypted.flatMap (fun poly =>
            (List.range coeffMod.length).flatMap fun j =>
              (List.range ((log2floor (coeffMod.getD j 0) + clog2 (t - 1 + 1) - 1)
                  / clog2 (t - 1 + 1))).flatMap fun k =>
                (List.range cc).map fun mi =>
                  (poly.getD (mi + j * cc) 0 >>> (k * clog2 (t - 1 + 1))) &&& (t - 1)) ∧
      (decompose_to_plaintexts_ptr t cc coeffMod encrypted).length
        = encrypted.length * ((coeffMod.map fun q =>
            (log2floor q + clog2 (t - 1 + 1) - 1) / clog2 (t - 1 + 1)).sum * cc) := by
  have hmain : decompose_to_plaintexts_ptr t cc coeffMod encrypted
      = encrypted.flatMap (fun poly =>
          (List.range coeffMod.length).flatMap fun j =>
            (List.range ((log2floor (coeffMod.getD j 0) + clog2 (t - 1 + 1) - 1)
                / clog2 (t - 1 + 1))).flatMap fun k =>
              (List.range cc).map fun mi =>
                (poly.getD (mi + j * cc) 0 >>> (k * clog2 (t - 1 + 1))) &&& (t - 1)) := by
    unfold decompose_to_plaintexts_ptr
    rw [foldl_acc_append _ _ ?hpoly encrypted []]
    · rw [List.nil_append]
    case hpoly =>
      intro acc poly
      rw [foldl_acc_append _ _ ?hmod (List.range coeffMod.length) acc]
      case hmod =>
        intro acc2 j
        rw [foldl_acc_append _ _ ?hk
          (List.range ((log2floor (coeffMod.getD j 0) + clog2 (t - 1 + 1) - 1)
            / clog2 (t - 1 + 1))) acc2]
        case hk =>
          intro acc3 k
          exact foldl_acc_words _ cc acc3
  refine ⟨hmain, ?_⟩
  rw [hmain, List.length_flatMap]
  have hone : ∀ poly : List Nat,
      ((List.range coeffMod.length).flatMap fun j =>
        (List.range ((log2floor (coeffMod.getD j 0) + clog2 (t - 1 + 1) - 1)
            / clog2 (t - 1 + 1))).flatMap fun k =>
          (List.range cc).map fun mi =>
            (poly.getD (mi + j * cc) 0 >>> (k * clog2 (t - 1 + 1))) &&& (t - 1)).length
      = (coeffMod.map fun q =>
          (log2floor q + clog2 (t - 1 + 1) - 1) / clog2 (t - 1 + 1)).sum * cc := by
    intro poly
    rw [List.length_flatMap]
    have hinner : ∀ j : Nat,
        ((List.range ((log2floor (coeffMod.getD j 0) + clog2 (t - 1 + 1) - 1)
            / clog2 (t - 1 + 1))).flatMap fun k =>
          (List.range cc).map fun mi =>
            (poly.getD (mi + j * cc) 0 >>> (k * clog2 (t - 1 + 1))) &&& (t - 1)).length
        = ((log2floor (coeffMod.getD j 0) + clog2 (t - 1 + 1) - 1)
            / clog2 (t - 1 + 1)) * cc := by
      intro j
      rw [List.length_flatMap]
      simp only [Function.comp_def, List.length_map, List.length_range,
        List.map_const', List.sum_replicate, smul_eq_mul]
    have hcomp : (List.map
          (List.length ∘ fun j =>
            (List.range ((log2floor (coeffMod.getD j 0) + clog2 (t - 1 + 1) - 1)
                / clog2 (t - 1 + 1))).flatMap fun k =>
              (List.range cc).map fun mi =>
                (poly.getD (mi + j * cc) 0 >>> (k * clog2 (t - 1 + 1))) &&& (t - 1))
          (List.range coeffMod.length)).sum
        = ((List.range coeffMod.length).map fun j =>
            ((log2floor (coeffMod.getD j 0) + clog2 (t - 1 + 1) - 1)
              / clog2 (t - 1 + 1)) * cc).sum := by
      congr 1
      apply List.map_congr_left
      intro j hj
      simp only [Function.comp_apply]
      exact hinner j
    rw [hcomp,
      range_map_getD (fun q =>
        ((log2floor q + clog2 (t - 1 + 1) - 1) / clog2 (t - 1 + 1)) * cc) 0 coeffMod,
      list_sum_map_mul_right]
  simp only [Function.comp_def, hone, List.map_const', List.sum_replicate,
    smul_eq_mul]

/-- Auxiliary: the integer idiom `(a + b - 1) / b` is at most `c` exactly
when `a ≤ b · c`, which characterises it as the ceiling of `a / b`. -/
theorem ceilDiv_le_iff {b : Nat} (hb : 1 ≤ b) (a c : Nat) :
    ceilDiv a b ≤ c ↔ a ≤ b * c := by
  unfold ceilDiv
  rw [Nat.div_le_iff_le_mul_add_pred (by omega)]
  omega

/-- Auxiliary: `a ≤ b · ceil(a / b)`. -/
theorem le_mul_ceilDiv {b : Nat} (hb : 1 ≤ b) (a : Nat) :
    a ≤ b * ceilDiv a b :=
  (ceilDiv_le_iff hb a _).mp le_rfl

/-- Auxiliary: ceiling division is monotone in the numerator. -/
theorem ceilDiv_mono_left {b : Nat} (a a' : Nat) (h : a ≤ a') :
    ceilDiv a b ≤ ceilDiv a' b :=
  Nat.div_le_div_right (by omega)

/-- Auxiliary: `ceil(n · a / b) ≤ n · ceil(a / b)`. -/
theorem ceilDiv_mul_le {b : Nat} (hb : 1 ≤ b) (n a : Nat) :
    ceilDiv (n * a) b ≤ n * ceilDiv a b := by
  rw [ceilDiv_le_iff hb]
  calc n * a ≤ n * (b * ceilDiv a b) := Nat.mul_le_mul_left n (le_mul_ceilDiv hb a)
    _ = b * (n * ceilDiv a b) := by ring

/-- Auxiliary: a common factor cancels from a ceiling division. -/
theorem ceilDiv_mul_right {b c : Nat} (hb : 1 ≤ b) (hc : 1 ≤ c) (a : Nat) :
    ceilDiv (a * c) (b * c) = ceilDiv a b := by
  have hbc : 1 ≤ b * c := Nat.mul_pos (by omega) (by omega)
  apply le_antisymm
  · rw [ceilDiv_le_iff hbc]
    calc a * c ≤ b * ceilDiv a b * c := Nat.mul_le_mul_right c (le_mul_ceilDiv hb a)
      _ = b * c * ceilDiv a b := by ring
  · rw [ceilDiv_le_iff hb]
    have h1 : a * c ≤ b * ceilDiv (a * c) (b * c) * c := by
      calc a * c ≤ b * c * ceilDiv (a * c) (b * c) := le_mul_ceilDiv hbc (a * c)
        _ = b * ceilDiv (a * c) (b * c) * c := by ring
    exact Nat.le_of_mul_le_mul_right h1 (by omega)

/-- Auxiliary: `ceil(0 / b) = 0`. -/
theorem ceilDiv_zero_left (b : Nat) : ceilDiv 0 b = 0 := by
  rcases b with _ | b
  · rfl
  · unfold ceilDiv
    exact Nat.div_eq_of_lt (by omega)

/-- Auxiliary: slicing an empty byte list yields no coefficients. -/
theorem bytes_to_coeffs_nil (logtp : Nat) : bytes_to_coeffs logtp [] = [] := by
  unfold bytes_to_coeffs
  rw [List.length_nil, Nat.mul_zero, ceilDiv_zero_left]
  rfl

/-- Auxiliary: once the data is exhausted the encoding loop stops. -/
theorem encodeLoop_stop (logtp bpp cpp N db_size : Nat) (bytes : List Nat) :
    ∀ fuel offset, db_size ≤ offset →
      encodeLoop logtp bpp cpp N db_size bytes fuel offset = some [] := by
  intro fuel offset h
  cases fuel with
  | zero => rfl
  | succ fuel => simp [encodeLoop, h]

/-- Auxiliary: the plaintext built by the encoder for chunk index `i` —
the chunk's coefficients padded to `N` entries with the value 1. -/
theorem encodeLoop_spec (logtp bpp cpp N : Nat) (bytes : List Nat)
    (hbpp : 1 ≤ bpp)
    (hcap : ceilDiv (8 * bpp) logtp ≤ cpp) :
    ∀ (fuel i : Nat),
      encodeLoop logtp bpp cpp N bytes.length bytes fuel (i * bpp)
        = some ((List.range
              (min fuel (ceilDiv bytes.length bpp - i))).map fun r =>
            (bytes_to_coeffs logtp ((bytes.drop ((i + r) * bpp)).take bpp)) ++
              List.replicate
                (N - (bytes_to_coeffs logtp
                  ((bytes.drop ((i + r) * bpp)).take bpp)).length) 1) := by
  intro fuel
  induction fuel with
  | zero => intro i; simp [encodeLoop]
  | succ fuel ih =>
    intro i
    by_cases hbreak : bytes.length ≤ i * bpp
    · have hnch : ceilDiv bytes.length bpp ≤ i := by
        rw [ceilDiv_le_iff hbpp]
        have hcomm : bpp * i = i * bpp := by ring
        omega
      rw [encodeLoop_stop _ _ _ _ _ _ _ _ hbreak]
      have : min (fuel + 1) (ceilDiv bytes.length bpp - i) = 0 := by omega
      rw [this]
      rfl
    · have hgt : i * bpp < bytes.length := by omega
      have hnchgt : i < ceilDiv bytes.length bpp := by
        by_contra hcon
        have hle : ceilDiv bytes.length bpp ≤ i := by omega
        rw [ceilDiv_le_iff hbpp] at hle
        have hcomm : bpp * i = i * bpp := by ring
        omega
      have hchunk : ∀ pb, min pb (bytes.length - i * bpp)
            = min bpp (bytes.length - i * bpp) →
          (bytes.drop (i * bpp)).take pb = (bytes.drop (i * bpp)).take bpp := by
        intro pb hpb
        rw [List.take_eq_take]
        rw [List.length_drop]
        exact hpb
      have husedle : (bytes_to_coeffs logtp
          ((bytes.drop (i * bpp)).take bpp)).length ≤ cpp := by
        unfold bytes_to_coeffs
        rw [List.length_map, List.length_range]
        refine le_trans (ceilDiv_mono_left _ _ ?_) hcap
        have : ((bytes.drop (i * bpp)).take bpp).length ≤ bpp := by
          simp [List.length_take]
        omega
      simp only [encodeLoop, if_neg (by omega : ¬ bytes.length ≤ i * bpp)]
      by_cases hpart : bytes.length < i * bpp + bpp
      · have hproc : (if bytes.length < i * bpp + bpp
            then bytes.length - i * bpp else bpp) = bytes.length - i * bpp := by
          simp [hpart]
        rw [hproc]
        rw [hchunk (bytes.length - i * bpp) (by omega)]
        rw [if_pos husedle]
        have hnext : i * bpp + (bytes.length - i * bpp) = bytes.length := by omega
        rw [hnext, encodeLoop_stop _ _ _ _ _ _ _ _ le_rfl]
        have hnch1 : ceilDiv bytes.length bpp = i + 1 := by
          have hle : ceilDiv bytes.length bpp ≤ i + 1 := by
            rw [ceilDiv_le_iff hbpp]
            have hcomm : bpp * (i + 1) = i * bpp + bpp := by ring
            omega
          omega
        rw [hnch1]
        have : min (fuel + 1) (i + 1 - i) = 1 := by omega
        rw [this]
        rfl
      · have hproc : (if bytes.length < i * bpp + bpp
            then bytes.length - i * bpp else bpp) = bpp := by
          simp [hpart]
        rw [hproc, if_pos husedle]
        have hnext : i * bpp + bpp = (i + 1) * bpp := by ring
        rw [hnext, ih (i + 1)]
        have hmin : min (fuel + 1) (ceilDiv bytes.length bpp - i)
            = min fuel (ceilDiv bytes.length bpp - (i + 1)) + 1 := by omega
        rw [hmin, List.range_succ_eq_map, List.map_cons, List.map_map]
        simp only [Option.map_some']
        congr 1
        congr 1
        apply List.map_congr_left
        intro r hr
        simp only [Function.comp_apply, Nat.succ_eq_add_one]
        have harg : i + (r + 1) = i + 1 + r := by omega
        rw [harg]

/-- C3 (amended): whenever the number of plaintexts required for the real
data exceeds `product(nvec)`, the byte-encoding `set_database` fails through
the C++ `assert(total <= matrix_plaintexts)` (a fatal assertion, modelled as
an `assertFailed` error, not a recoverable `CapacityExceeded` error), and
the previously stored database and state are left unchanged. -/
theorem set_database_bytes_capacity {K : Type} (bytes : List Nat)
    (ele_num ele_size : Nat) (s : ServerState (List Nat) K)
    (h : s.pirNvec.prod < plaintexts_per_db (clog2 s.params.plainModulus)
      s.params.polyModulus ele_num ele_size) :
    set_database_bytes bytes ele_num ele_size s
      = (some PirError.assertFailed, s) := by
  unfold set_database_bytes
  rw [if_pos (by omega)]

/-- Witness for C3: the capacity assertion evaluated on a concrete
over-full input, leaving the stored database intact. -/
theorem set_database_bytes_capacity_witness :
    set_database_bytes [0, 0] 2 1 evalState3
      = (some PirError.assertFailed, evalState3) :=
  set_database_bytes_capacity [0, 0] 2 1 evalState3 (by decide)

/-- Counterexample for C3 as stated: at a concrete over-capacity input the
reported error is the assertion failure, not `CapacityExceeded`. -/
theorem set_database_bytes_counterexample :
    (set_database_bytes [0, 0] 2 1 evalState3).1
      ≠ some PirError.capacityExceeded := by
  decide

/-- C4: when the real data fits, the byte-encoding `set_database` succeeds
and installs a database of length exactly `product(nvec)` in which plaintext
`i` holds the coefficients of byte chunk `i` followed by 1-padding up to
`N` coefficients — in particular every tail coefficient of a partially
filled plaintext and every coefficient of a whole padding plaintext (whose
chunk is empty) is 1, never 0 — and the preprocessed flag is cleared. -/
theorem set_database_bytes_spec {K : Type} (bytes : List Nat)
    (ele_num ele_size : Nat) (s : ServerState (List Nat) K)
    (hlen : bytes.length = ele_num * ele_size) (hsize : 1 ≤ ele_size)
    (hlog : 1 ≤ clog2 s.params.plainModulus)
    (hcpe : coefficients_per_element (clog2 s.params.plainModulus) ele_size
      ≤ s.params.polyModulus)
    (hfit : plaintexts_per_db (clog2 s.params.plainModulus)
      s.params.polyModulus ele_num ele_size ≤ s.pirNvec.prod) :
    set_database_bytes bytes ele_num ele_size s
      = (none,
        { s with
          db := (List.range s.pirNvec.prod).map fun i =>
            bytes_to_coeffs (clog2 s.params.plainModulus)
                ((bytes.drop (i * (elements_per_ptxt (clog2 s.params.plainModulus)
                    s.params.polyModulus ele_size * ele_size))).take
                  (elements_per_ptxt (clog2 s.params.plainModulus)
                    s.params.polyModulus ele_size * ele_size)) ++
              List.replicate (s.params.polyModulus -
                (bytes_to_coeffs (clog2 s.params.plainModulus)
                  ((bytes.drop (i * (elements_per_ptxt (clog2 s.params.plainModulus)
                      s.params.polyModulus ele_size * ele_size))).take
                    (elements_per_ptxt (clog2 s.params.plainModulus)
                      s.params.polyModulus ele_size * ele_size))).length) 1
          isDbPreprocessed := false }) := by
  have hcpe1 : 1 ≤ coefficients_per_element (clog2 s.params.plainModulus) ele_size := by
    unfold coefficients_per_element
    by_contra hcon
    have h0 : ceilDiv (8 * ele_size) (clog2 s.params.plainModulus) ≤ 0 := by omega
    rw [ceilDiv_le_iff hlog] at h0
    omega
  have hepp : 1 ≤ elements_per_ptxt (clog2 s.params.plainModulus)
      s.params.polyModulus ele_size := by
    unfold elements_per_ptxt
    rw [Nat.le_div_iff_mul_le (by omega)]
    omega
  have hbpp : 1 ≤ elements_per_ptxt (clog2 s.params.plainModulus)
      s.params.polyModulus ele_size * ele_size := Nat.mul_pos (by omega) (by omega)
  have hcppN : elements_per_ptxt (clog2 s.params.plainModulus)
        s.params.polyModulus ele_size
        * coefficients_per_element (clog2 s.params.plainModulus) ele_size
      ≤ s.params.polyModulus := by
    unfold elements_per_ptxt
    exact Nat.div_mul_le_self _ _
  have hcap : ceilDiv (8 * (elements_per_ptxt (clog2 s.params.plainModulus)
        s.params.polyModulus ele_size * ele_size)) (clog2 s.params.plainModulus)
      ≤ elements_per_ptxt (clog2 s.params.plainModulus)
          s.params.polyModulus ele_size
        * coefficients_per_element (clog2 s.params.plainModulus) ele_size := by
    have h8 : 8 * (elements_per_ptxt (clog2 s.params.plainModulus)
          s.params.polyModulus ele_size * ele_size)
        = elements_per_ptxt (clog2 s.params.plainModulus)
            s.params.polyModulus ele_size * (8 * ele_size) := by ring
    rw [h8]
    exact ceilDiv_mul_le hlog _ _
  have hnch : ceilDiv bytes.length (elements_per_ptxt (clog2 s.params.plainModulus)
        s.params.polyModulus ele_size * ele_size)
      = plaintexts_per_db (clog2 s.params.plainModulus) s.params.polyModulus
          ele_num ele_size := by
    rw [hlen]
    exact ceilDiv_mul_right hepp hsize ele_num
  have hloop := encodeLoop_spec (clog2 s.params.plainModulus)
    (elements_per_ptxt (clog2 s.params.plainModulus)
      s.params.polyModulus ele_size * ele_size)
    (elements_per_ptxt (clog2 s.params.plainModulus)
        s.params.polyModulus ele_size
      * coefficients_per_element (clog2 s.params.plainModulus) ele_size)
    s.params.polyModulus bytes hbpp hcap
    (plaintexts_per_db (clog2 s.params.plainModulus) s.params.polyModulus
      ele_num ele_size) 0
  rw [Nat.zero_mul, hnch, Nat.sub_zero, min_self] at hloop
  unfold set_database_bytes
  rw [if_neg (by omega), if_neg (by omega), ← hlen, hloop]
  dsimp only
  have hlenpts : ((List.range (plaintexts_per_db (clog2 s.params.plainModulus)
        s.params.polyModulus ele_num ele_size)).map fun r =>
      bytes_to_coeffs (clog2 s.params.plainModulus)
          ((bytes.drop ((0 + r) * (elements_per_ptxt (clog2 s.params.plainModulus)
              s.params.polyModulus ele_size * ele_size))).take
            (elements_per_ptxt (clog2 s.params.plainModulus)
              s.params.polyModulus ele_size * ele_size)) ++
        List.replicate (s.params.polyModulus -
          (bytes_to_coeffs (clog2 s.params.plainModulus)
            ((bytes.drop ((0 + r) * (elements_per_ptxt (clog2 s.params.plainModulus)
                s.params.polyModulus ele_size * ele_size))).take
              (elements_per_ptxt (clog2 s.params.plainModulus)
                s.params.polyModulus ele_size * ele_size))).length) 1).length
      = plaintexts_per_db (clog2 s.params.plainModulus) s.params.polyModulus
          ele_num ele_size := by
    rw [List.length_map, List.length_range]
  congr 2
  rw [hlenpts]
  have hsplit : s.pirNvec.prod
      = plaintexts_per_db (clog2 s.params.plainModulus) s.params.polyModulus
          ele_num ele_size
        + (s.pirNvec.prod - plaintexts_per_db (clog2 s.params.plainModulus)
            s.params.polyModulus ele_num ele_size) := by omega
  rw [hsplit, List.range_add, List.map_append]
  congr 1
  · apply List.map_congr_left
    intro r hr
    rw [Nat.zero_add]
  · have hpad : ∀ r : Nat,
        bytes.length ≤ (plaintexts_per_db (clog2 s.params.plainModulus)
            s.params.polyModulus ele_num ele_size + r)
          * (elements_per_ptxt (clog2 s.params.plainModulus)
              s.params.polyModulus ele_size * ele_size) := by
      intro r
      have h1 : ele_num ≤ elements_per_ptxt (clog2 s.params.plainModulus)
            s.params.polyModulus ele_size
          * plaintexts_per_db (clog2 s.params.plainModulus)
              s.params.polyModulus ele_num ele_size :=
        le_mul_ceilDiv hepp ele_num
      have h2 : bytes.length ≤ plaintexts_per_db (clog2 s.params.plainModulus)
            s.params.polyModulus ele_num ele_size
          * (elements_per_ptxt (clog2 s.params.plainModulus)
              s.params.polyModulus ele_size * ele_size) := by
        rw [hlen]
        calc ele_num * ele_size
            ≤ elements_per_ptxt (clog2 s.params.plainModulus)
                  s.params.polyModulus ele_size
                * plaintexts_per_db (clog2 s.params.plainModulus)
                    s.params.polyModulus ele_num ele_size * ele_size :=
              Nat.mul_le_mul_right ele_size h1
          _ = plaintexts_per_db (clog2 s.params.plainModulus)
                  s.params.polyModulus ele_num ele_size
                * (elements_per_ptxt (clog2 s.params.plainModulus)
                    s.params.polyModulus ele_size * ele_size) := by ring
      have h3 : plaintexts_per_db (clog2 s.params.plainModulus)
            s.params.polyModulus ele_num ele_size
          * (elements_per_ptxt (clog2 s.params.plainModulus)
              s.params.polyModulus ele_size * ele_size)
          ≤ (plaintexts_per_db (clog2 s.params.plainModulus)
              s.params.polyModulus ele_num ele_size + r)
            * (elements_per_ptxt (clog2 s.params.plainModulus)
                s.params.polyModulus ele_size * ele_size) :=
        Nat.mul_le_mul_right _ (by omega)
      omega
    have hone : ∀ r : Nat,
        bytes_to_coeffs (clog2 s.params.plainModulus)
            ((bytes.drop ((plaintexts_per_db (clog2 s.params.plainModulus)
                  s.params.polyModulus ele_num ele_size + r)
                * (elements_per_ptxt (clog2 s.params.plainModulus)
                    s.params.polyModulus ele_size * ele_size))).take
              (elements_per_ptxt (clog2 s.params.plainModulus)
                s.params.polyModulus ele_size * ele_size)) ++
          List.replicate (s.params.polyModulus -
            (bytes_to_coeffs (clog2 s.params.plainModulus)
              ((bytes.drop ((plaintexts_per_db (clog2 s.params.plainModulus)
                    s.params.polyModulus ele_num ele_size + r)
                  * (elements_per_ptxt (clog2 s.params.plainModulus)
                      s.params.polyModulus ele_size * ele_size))).take
                (elements_per_ptxt (clog2 s.params.plainModulus)
                  s.params.polyModulus ele_size * ele_size))).length) 1
          = List.replicate s.params.polyModulus 1 := by
      intro r
      rw [List.drop_eq_nil_of_le (hpad r), List.take_nil, bytes_to_coeffs_nil]
      simp
    rw [List.map_map]
    have hconst : List.map
        ((fun i =>
          bytes_to_coeffs (clog2 s.params.plainModulus)
              ((bytes.drop (i * (elements_per_ptxt (clog2 s.params.plainModulus)
                  s.params.polyModulus ele_size * ele_size))).take
                (elements_per_ptxt (clog2 s.params.plainModulus)
                  s.params.polyModulus ele_size * ele_size)) ++
            List.replicate (s.params.polyModulus -
              (bytes_to_coeffs (clog2 s.params.plainModulus)
                ((bytes.drop (i * (elements_per_ptxt (clog2 s.params.plainModulus)
                    s.params.polyModulus ele_size * ele_size))).take
                  (elements_per_ptxt (clog2 s.params.plainModulus)
                    s.params.polyModulus ele_size * ele_size))).length) 1)
          ∘ (plaintexts_per_db (clog2 s.params.plainModulus)
              s.params.polyModulus ele_num ele_size + ·))
        (List.range (s.pirNvec.prod -
          plaintexts_per_db (clog2 s.params.plainModulus) s.params.polyModulus
            ele_num ele_size))
        = List.map (fun _ => List.replicate s.params.polyModulus 1)
          (List.range (s.pirNvec.prod -
            plaintexts_per_db (clog2 s.params.plainModulus) s.params.polyModulus
              ele_num ele_size)) := by
      apply List.map_congr_left
      intro r hr
      exact hone r
    rw [hconst, List.map_const', List.length_range]
    congr 1
    omega

/-- Witness for C4: the byte-encoding evaluated on two one-byte elements
into a 2-slot matrix with `N = 4` and a 3-bit plaintext modulus. -/
theorem set_database_bytes_spec_witness :
    set_database_bytes [171, 205] 2 1 evalState4
      = (none,
        { evalState4 with
          db := (List.range evalState4.pirNvec.prod).map fun i =>
            bytes_to_coeffs (clog2 evalState4.params.plainModulus)
                (([171, 205].drop
                    (i * (elements_per_ptxt (clog2 evalState4.params.plainModulus)
                      evalState4.params.polyModulus 1 * 1))).take
                  (elements_per_ptxt (clog2 evalState4.params.plainModulus)
                    evalState4.params.polyModulus 1 * 1)) ++
              List.replicate (evalState4.params.polyModulus -
                (bytes_to_coeffs (clog2 evalState4.params.plainModulus)
                  (([171, 205].drop
                      (i * (elements_per_ptxt (clog2 evalState4.params.plainModulus)
                        evalState4.params.polyModulus 1 * 1))).take
                    (elements_per_ptxt (clog2 evalState4.params.plainModulus)
                      evalState4.params.polyModulus 1 * 1))).length) 1
          isDbPreprocessed := false }) :=
  set_database_bytes_spec [171, 205] 2 1 evalState4 (by decide) (by decide)
    (by decide) (by decide) (by decide)

/-- Counterexample for C5 as stated: with `t = 4` (`exp = 2`) and a modulus
`q = 5` (`logq = 2`), the code emits `(2 + 2 - 1) / 2 = 1` plaintext for the
single polynomial and modulus, while the claim's formula
`ceil((logq + exp - 1) / exp) = ceil(3 / 2) = 2` demands two. -/
theorem decompose_ratio_counterexample :
    (decompose_to_plaintexts_ptr 4 1 [5] [[3]]).length = 1 ∧
      ceilDiv (log2floor 5 + clog2 (4 - 1 + 1) - 1) (clog2 (4 - 1 + 1)) * 1 = 2 ∧
      (1 : Nat) ≠ 2 := by
  decide

/-- Witness for C8: the inner-product characterisation evaluated at a
concrete two-dimensional reduction. -/
theorem generate_reply_inner_product_witness :
    dimReduce (P := Nat) (C := Nat) (· * ·) (· + ·) [2, 3] [5, 7, 11, 13] 2 2
      = some [2 * 5 + 3 * 11, 2 * 7 + 3 * 13] := by
  rw [generate_reply_inner_product (· * ·) [2, 3] [5, 7, 11, 13] 2 2 0 0
    (by decide) (by decide) (by decide)]
  decide

/-- Auxiliary: casting is injective on naturals below the modulus. -/
theorem natCast_inj_lt {n a b : Nat} (ha : a < n) (hb : b < n) :
    ((a : ZMod n) = (b : ZMod n)) ↔ a = b := by
  haveI : NeZero n := ⟨by omega⟩
  constructor
  · intro h
    have h2 := congrArg ZMod.val h
    rwa [ZMod.val_cast_of_lt ha, ZMod.val_cast_of_lt hb] at h2
  · intro h
    rw [h]

/-- Auxiliary: `N + N = 0` in `Z_{2N}`. -/
theorem natCast_N_add_N {N : Nat} : ((N : ZMod (2 * N)) + N) = 0 := by
  have h := ZMod.natCast_self (2 * N)
  push_cast at h
  linear_combination h

/-- The negacyclic shift multiplies a monomial by `x^idx`: `multiply_power_of_X idx x^e = x^(e+idx)` in `Z_t[x]/(x^N + 1)`. -/
theorem multiply_power_of_X_xpow {N t : Nat} (hN : 0 < N) (idx e : Nat) :
    multiply_power_of_X (N := N) (t := t) idx (xpow N t e) = xpow N t (e + idx) := by
  have h2N : 0 < 2 * N := by omega
  funext k
  unfold multiply_power_of_X xpow
  dsimp only
  set s := idx % (2 * N) with hs
  set r := e % (2 * N) with hr
  set q := (e + idx) % (2 * N) with hq
  set j := (k.val + 2 * N - s) % (2 * N) with hj
  have hslt : s < 2 * N := Nat.mod_lt _ h2N
  have hrlt : r < 2 * N := Nat.mod_lt _ h2N
  have hqlt : q < 2 * N := Nat.mod_lt _ h2N
  have hjlt : j < 2 * N := Nat.mod_lt _ h2N
  have hk : k.val < N := k.isLt
  have hjc : ((j : Nat) : ZMod (2 * N)) = (k.val : ZMod (2 * N)) - (s : ZMod (2 * N)) := by
    rw [hj, ZMod.natCast_mod]
    push_cast [show s ≤ k.val + 2 * N by omega]
    linear_combination (natCast_N_add_N (N := N))
  have hqc : ((q : Nat) : ZMod (2 * N))
      = (r : ZMod (2 * N)) + (s : ZMod (2 * N)) := by
    rw [hq, hr, hs]
    push_cast [ZMod.natCast_mod]
    ring
  have hiff1 : (j = r) ↔ (k.val = q) := by
    rw [← natCast_inj_lt hjlt hrlt,
      ← natCast_inj_lt (show k.val < 2 * N by omega) hqlt, hjc, hqc,
      sub_eq_iff_eq_add]
  by_cases hlt : j < N
  · rw [dif_pos hlt]
    have hiff2 : (j + N = r) ↔ (k.val + N = q) := by
      rw [← natCast_inj_lt (show j + N < 2 * N by omega) hrlt,
        ← natCast_inj_lt (show k.val + N < 2 * N by omega) hqlt]
      push_cast
      rw [hjc, hqc]
      constructor <;> intro h <;> linear_combination h
    simp only [hiff1, hiff2]
  · have hNle : N ≤ j := by omega
    have h2 : j - N < N := by omega
    rw [dif_neg hlt, dif_pos h2]
    have hiff4 : (j - N = r) ↔ (k.val + N = q) := by
      rw [← natCast_inj_lt (show j - N < 2 * N by omega) hrlt,
        ← natCast_inj_lt (show k.val + N < 2 * N by omega) hqlt]
      push_cast [hNle]
      rw [hjc, hqc]
      constructor <;> intro h
      · linear_combination h + (natCast_N_add_N (N := N))
      · linear_combination h - (natCast_N_add_N (N := N))
    simp only [hiff4, Nat.sub_add_cancel hNle, hiff1]
    by_cases hA : k.val = q <;> by_cases hB : k.val + N = q
    · exfalso
      omega
    · simp only [if_neg hB, if_pos hA, neg_neg]
    · simp only [if_pos hB, if_neg hA]
    · simp only [if_neg hB, if_neg hA, neg_zero]

/-- The automorphism with odd exponent `elt` maps the monomial `x^e` to `x^(e*elt)` in `Z_t[x]/(x^N + 1)`. -/
theorem apply_galois_xpow {N t : Nat} (hN : 0 < N) (elt e : Nat) (helt : elt % 2 = 1) :
    apply_galois (N := N) (t := t) elt (xpow N t e) = xpow N t (e * elt) := by
  have h2N : 0 < 2 * N := by omega
  obtain ⟨c, hc⟩ : ∃ c, elt = 2 * c + 1 := ⟨elt / 2, by omega⟩
  funext k
  unfold apply_galois xpow
  set r := e % (2 * N) with hr
  set q := (e * elt) % (2 * N) with hq
  have hrlt : r < 2 * N := Nat.mod_lt _ h2N
  have hqlt : q < 2 * N := Nat.mod_lt _ h2N
  have hk : k.val < N := k.isLt
  have hrc : ((r : Nat) : ZMod (2 * N)) = (e : ZMod (2 * N)) := by
    rw [hr, ZMod.natCast_mod]
  have hqc : ((q : Nat) : ZMod (2 * N))
      = (r : ZMod (2 * N)) * (elt : ZMod (2 * N)) := by
    rw [hq, ZMod.natCast_mod, hrc]
    push_cast
    ring
  by_cases hrN : r < N
  · rw [Finset.sum_eq_single_of_mem (⟨r, hrN⟩ : Fin N) (Finset.mem_univ _) ?hz]
    case hz =>
      intro b _ hbne
      have hbv : b.val ≠ r := fun hv => hbne (Fin.ext hv)
      have hbv2 : b.val + N ≠ r := by omega
      rw [if_neg hbv, if_neg hbv2]
      split_ifs <;> simp
    have hq1 : (r * elt) % (2 * N) = q := by
      rw [hq]
      exact Nat.ModEq.mul_right elt (Nat.mod_modEq e (2 * N))
    simp only [hq1, if_pos rfl, if_true]
    by_cases hA : k.val = q <;> by_cases hB : k.val + N = q
    · exfalso
      omega
    · simp only [if_pos hA.symm, if_pos hA, if_true]
    · have hne : q ≠ k.val := fun hv => hA hv.symm
      simp only [if_neg hne, if_pos hB.symm, if_neg hA, if_pos hB, if_true]
    · have hne : q ≠ k.val := fun hv => hA hv.symm
      have hne2 : q ≠ k.val + N := fun hv => hB hv.symm
      simp only [if_neg hne, if_neg hne2, if_neg hA, if_neg hB]
  · have hge : N ≤ r := by omega
    have hrN2 : r - N < N := by omega
    rw [Finset.sum_eq_single_of_mem (⟨r - N, hrN2⟩ : Fin N) (Finset.mem_univ _) ?hz]
    case hz =>
      intro b _ hbne
      have hblt := b.isLt
      have hbv : b.val ≠ r := by omega
      have hbv2 : b.val + N ≠ r := by
        intro hv
        exact hbne (Fin.ext (show b.val = r - N by omega))
      rw [if_neg hbv, if_neg hbv2]
      split_ifs <;> simp
    have hval : (if (r - N : Nat) = r then (1 : ZMod t)
        else if (r - N) + N = r then -1 else 0) = -1 := by
      rw [if_neg (by omega), if_pos (by omega)]
    have huc : (((((r - N) * elt) % (2 * N) : Nat)) : ZMod (2 * N))
        = (q : ZMod (2 * N)) - (N : ZMod (2 * N)) := by
      rw [ZMod.natCast_mod, hqc]
      push_cast [hge, hc]
      linear_combination (-(c : ZMod (2 * N))) * (natCast_N_add_N (N := N))
    have hiffA : (((r - N) * elt) % (2 * N) = k.val) ↔ (k.val + N = q) := by
      rw [← natCast_inj_lt (Nat.mod_lt ((r - N) * elt) h2N)
        (show k.val < 2 * N by omega)]
      rw [← natCast_inj_lt (show k.val + N < 2 * N by omega) hqlt]
      rw [huc]
      push_cast
      constructor <;> intro h
      · linear_combination -h
      · linear_combination -h
    have hiffB : (((r - N) * elt) % (2 * N) = k.val + N) ↔ (k.val = q) := by
      rw [← natCast_inj_lt (Nat.mod_lt ((r - N) * elt) h2N)
        (show k.val + N < 2 * N by omega)]
      rw [← natCast_inj_lt (show k.val < 2 * N by omega) hqlt]
      rw [huc]
      push_cast
      constructor <;> intro h
      · linear_combination -h - (natCast_N_add_N (N := N))
      · linear_combination -h - (natCast_N_add_N (N := N))
    simp only [hval, hiffA, hiffB]
    by_cases hA : k.val = q <;> by_cases hB : k.val + N = q
    · exfalso
      omega
    · simp only [if_neg (show ¬(k.val + N = q) from hB), if_pos hA, neg_neg]
    · simp only [if_pos hB, if_neg hA]
    · simp only [if_neg hB, if_neg hA, neg_zero]

/-- `apply_galois` commutes with scaling. -/
theorem apply_galois_mulConst {N t : Nat} (elt : Nat) (c : ZMod t) (p : Poly N t) :
    apply_galois elt (mulConst c p) = mulConst c (apply_galois elt p) := by
  funext k
  unfold apply_galois mulConst
  rw [Finset.mul_sum]
  congr 1
  funext j
  split_ifs <;> ring

/-- `apply_galois` sends zero to zero. -/
theorem apply_galois_zero {N t : Nat} (elt : Nat) :
    apply_galois elt (zeroPoly N t) = zeroPoly N t := by
  funext k
  unfold apply_galois zeroPoly
  simp

/-- `multiply_power_of_X` commutes with scaling. -/
theorem multiply_power_of_X_mulConst {N t : Nat} (index : Nat) (c : ZMod t)
    (p : Poly N t) :
    multiply_power_of_X index (mulConst c p) = mulConst c (multiply_power_of_X index p) := by
  funext k
  unfold multiply_power_of_X mulConst
  dsimp only
  split_ifs <;> ring

/-- `multiply_power_of_X` sends zero to zero. -/
theorem multiply_power_of_X_zero {N t : Nat} (index : Nat) :
    multiply_power_of_X index (zeroPoly N t) = zeroPoly N t := by
  funext k
  unfold multiply_power_of_X zeroPoly
  dsimp only
  split_ifs <;> ring

/-- Adding `N` to a monomial exponent negates it: `x^(e+N) = -x^e`. -/
theorem xpow_add_N {N t : Nat} (hN : 0 < N) (e : Nat) :
    xpow N t (e + N) = mulConst (-1) (xpow N t e) := by
  have h2N : 0 < 2 * N := by omega
  funext k
  simp only [xpow, mulConst]
  set r := e % (2 * N) with hr
  have hrlt : r < 2 * N := Nat.mod_lt _ h2N
  have hk : k.val < N := k.isLt
  have hmod : (e + N) % (2 * N) = (r + N) % (2 * N) := by
    rw [Nat.add_mod, ← hr, Nat.mod_eq_of_lt (show N < 2 * N by omega)]
  by_cases hrN : r < N
  · have hv : (e + N) % (2 * N) = r + N := by
      rw [hmod, Nat.mod_eq_of_lt (by omega)]
    rw [hv, if_neg (show ¬ k.val = r + N by omega)]
    by_cases hkr : k.val = r
    · rw [if_pos (show k.val + N = r + N by omega), if_pos hkr]
      ring
    · rw [if_neg (show ¬ k.val + N = r + N by omega), if_neg hkr,
        if_neg (show ¬ k.val + N = r by omega)]
      ring
  · have hge : N ≤ r := by omega
    have hv : (e + N) % (2 * N) = r - N := by
      rw [hmod, Nat.mod_eq_sub_mod (by omega), Nat.mod_eq_of_lt (by omega)]
      omega
    rw [hv, if_neg (show ¬ k.val + N = r - N by omega),
      if_neg (show ¬ k.val = r by omega)]
    by_cases hkr : k.val + N = r
    · rw [if_pos (show k.val = r - N by omega), if_pos hkr]
      ring
    · rw [if_neg (show ¬ k.val = r - N by omega), if_neg hkr]
      ring

/-- `c * x^(2N)` is the constant polynomial `c`. -/
theorem mulConst_xpow_two_N {N t : Nat} (hN : 0 < N) (c : ZMod t) :
    mulConst c (xpow N t (2 * N)) = constPoly N t c := by
  funext k
  simp only [mulConst, xpow, constPoly]
  rw [Nat.mod_self]
  by_cases hk0 : k.val = 0
  · rw [if_pos hk0, if_pos hk0]
    ring
  · rw [if_neg hk0, if_neg hk0, if_neg (show ¬ k.val + N = 0 by omega)]
    ring

/-- The monomial exponent only matters modulo `2N`. -/
theorem xpow_mod_two_N {N t : Nat} (e : Nat) :
    xpow N t (e % (2 * N)) = xpow N t e := by
  funext k
  simp only [xpow]
  rw [Nat.mod_mod_of_dvd e (dvd_refl (2 * N))]

/-- Scalings of the same polynomial add by adding the scalars. -/
theorem polyAdd_mulConst_same {N t : Nat} (a b : ZMod t) (p : Poly N t) :
    polyAdd (mulConst a p) (mulConst b p) = mulConst (a + b) p := by
  funext k
  unfold polyAdd mulConst
  ring

/-- Composed scalings multiply the scalars. -/
theorem mulConst_mulConst {N t : Nat} (a b : ZMod t) (p : Poly N t) :
    mulConst a (mulConst b p) = mulConst (a * b) p := by
  funext k
  unfold mulConst
  ring

/-- Scaling by zero gives the zero polynomial. -/
theorem mulConst_zero_c {N t : Nat} (p : Poly N t) :
    mulConst (0 : ZMod t) p = zeroPoly N t := by
  funext k
  unfold mulConst zeroPoly
  ring

/-- Zero plus zero is zero. -/
theorem polyAdd_zero_zero {N t : Nat} :
    polyAdd (zeroPoly N t) (zeroPoly N t) = zeroPoly N t := by
  funext k
  unfold polyAdd zeroPoly
  ring

/-- Monomials with exponents congruent modulo `2N` coincide. -/
theorem xpow_congr {N t : Nat} {a b : Nat} (h : a % (2 * N) = b % (2 * N)) :
    xpow N t a = xpow N t b := by
  funext k
  simp only [xpow]
  rw [h]

/-- Full turns of `2N` in the exponent can be dropped. -/
theorem xpow_mul_c2N {N t : Nat} (c e : Nat) :
    xpow N t (c * (2 * N) + e) = xpow N t e := by
  apply xpow_congr
  rw [Nat.mul_comm c (2 * N)]
  exact Nat.mul_add_mod (2 * N) c e

/-- Auxiliary: a natural below two is zero or one. -/
theorem nat_lt_two_cases {a : Nat} (h : a < 2) : a = 0 ∨ a = 1 := by
  rcases Nat.lt_or_ge a 1 with hc | hc
  · exact Or.inl (Nat.lt_one_iff.mp hc)
  · exact Or.inr (Nat.le_antisymm (Nat.lt_succ_iff.mp h) hc)

/-- Auxiliary: two numbers congruent modulo `P` but not modulo `2P` differ by `P` between their residues modulo `2P`. -/
theorem mod2_cases (P x y : Nat) (hP : 0 < P) (h : x % P = y % P)
    (hne : x % (2 * P) ≠ y % (2 * P)) :
    x % (2 * P) = y % (2 * P) + P ∨ y % (2 * P) = x % (2 * P) + P := by
  have hu2 : (x % (2 * P)) % P = x % P := Nat.mod_mod_of_dvd x ⟨2, by ring⟩
  have hv2 : (y % (2 * P)) % P = y % P := Nat.mod_mod_of_dvd y ⟨2, by ring⟩
  have hulr : x % (2 * P) < 2 * P := Nat.mod_lt _ (by omega)
  have hvlr : y % (2 * P) < 2 * P := Nat.mod_lt _ (by omega)
  set u := x % (2 * P) with hu
  set v := y % (2 * P) with hv
  clear_value u v
  have hr : u % P = v % P := by rw [hu2, hv2, h]
  have huP : u = P * (u / P) + u % P := (Nat.div_add_mod u P).symm
  have hvP : v = P * (v / P) + v % P := (Nat.div_add_mod v P).symm
  have hud : u / P < 2 := Nat.div_lt_of_lt_mul (by omega)
  have hvd : v / P < 2 := Nat.div_lt_of_lt_mul (by omega)
  obtain hbu | hbu := nat_lt_two_cases hud <;>
    obtain hbv | hbv := nat_lt_two_cases hvd <;>
    rw [hbu] at huP <;> rw [hbv] at hvP <;> omega

/-- Auxiliary: `2^(k+1)` divides `2 * 2^nl` for `k < nl`. -/
theorem pow_k1_dvd_two_pow {nl k : Nat} (hk : k < nl) :
    (2:Nat) ^ (k + 1) ∣ 2 * 2 ^ nl := by
  have h2 : 2 * 2 ^ nl = 2 ^ (nl + 1) := (pow_succ' 2 nl).symm
  rw [h2]
  exact pow_dvd_pow 2 (by omega)

/-- Auxiliary: the exponent `2N + idx - a` is divisible by `2^(k+1)` when `idx` and `a` agree modulo `2^(k+1)`. -/
theorem E_mod_zero {nl idx k a : Nat} (hk : k < nl) (ha : a < 2 ^ k)
    (h1 : idx % 2 ^ (k + 1) = a % 2 ^ (k + 1)) :
    (2 * 2 ^ nl + idx - a) % 2 ^ (k + 1) = 0 := by
  have hklN : (2:Nat) ^ k ≤ 2 ^ nl := Nat.pow_le_pow_right (by norm_num) (le_of_lt hk)
  have hEa : (2 * 2 ^ nl + idx - a) + a = 2 * 2 ^ nl + idx := by omega
  have h2N0 : (2 * 2 ^ nl) % 2 ^ (k + 1) = 0 := by
    have h := (Nat.modEq_zero_iff_dvd).mpr (pow_k1_dvd_two_pow hk)
    simpa [Nat.ModEq] using h
  have hcalc : (2 * 2 ^ nl + idx) % 2 ^ (k + 1) = a % 2 ^ (k + 1) := by
    rw [Nat.add_mod, h2N0, Nat.zero_add,
      Nat.mod_mod_of_dvd idx (dvd_refl (2 ^ (k + 1))), h1]
  have hfin : ((2 * 2 ^ nl + idx - a) + a) % 2 ^ (k + 1) = (0 + a) % 2 ^ (k + 1) := by
    rw [hEa, hcalc, Nat.zero_add]
  have h := Nat.ModEq.add_right_cancel' a hfin
  simpa [Nat.ModEq] using h

/-- Auxiliary: the exponent `2N + idx - a` reduces to `2^k` modulo `2^(k+1)` when `idx` and `a` agree modulo `2^k` but not modulo `2^(k+1)`. -/
theorem E_mod_P {nl idx k a : Nat} (hk : k < nl) (ha : a < 2 ^ k)
    (h0 : idx % 2 ^ k = a % 2 ^ k) (h1 : idx % 2 ^ (k + 1) ≠ a % 2 ^ (k + 1)) :
    (2 * 2 ^ nl + idx - a) % 2 ^ (k + 1) = 2 ^ k := by
  have hP : (0:Nat) < 2 ^ k := pow_pos (by norm_num) k
  have hm : (2:Nat) ^ (k + 1) = 2 * 2 ^ k := pow_succ' 2 k
  have hklN : (2:Nat) ^ k ≤ 2 ^ nl := Nat.pow_le_pow_right (by norm_num) (le_of_lt hk)
  have h1' : idx % (2 * 2 ^ k) ≠ a % (2 * 2 ^ k) := by rw [← hm]; exact h1
  have haP : a % (2 * 2 ^ k) = a := Nat.mod_eq_of_lt (by omega)
  rcases mod2_cases (2 ^ k) idx a hP h0 h1' with hA | hB
  · rw [hm]
    have hEa : (2 * 2 ^ nl + idx - a) + a = 2 * 2 ^ nl + idx := by omega
    have h2N0 : (2 * 2 ^ nl) % (2 * 2 ^ k) = 0 := by
      have h := (Nat.modEq_zero_iff_dvd).mpr (hm ▸ pow_k1_dvd_two_pow hk)
      simpa [Nat.ModEq] using h
    have hcalc : (2 * 2 ^ nl + idx) % (2 * 2 ^ k) = a + 2 ^ k := by
      rw [Nat.add_mod, h2N0, Nat.zero_add,
        Nat.mod_mod_of_dvd idx (dvd_refl (2 * 2 ^ k)), hA, haP]
    have hfin : ((2 * 2 ^ nl + idx - a) + a) % (2 * 2 ^ k)
        = (2 ^ k + a) % (2 * 2 ^ k) := by
      rw [hEa, hcalc, Nat.mod_eq_of_lt (by omega), Nat.add_comm]
    have h := Nat.ModEq.add_right_cancel' a hfin
    have h2 : (2 * 2 ^ nl + idx - a) % (2 * 2 ^ k) = 2 ^ k % (2 * 2 ^ k) := h
    rw [h2, Nat.mod_eq_of_lt (by omega)]
  · exfalso
    have hidxnn : idx % (2 * 2 ^ k) < 2 * 2 ^ k := Nat.mod_lt _ (by omega)
    omega

/-- One expansion level, first child: `temp[a] + galois(temp[a])` carries the invariant entry at slot `a` from level `k` to level `k + 1`. -/
theorem step_first {nl t : Nat} (idx k a : Nat) (hk : k < nl) (ha : a < 2 ^ k) :
    polyAdd (entryPoly (2 ^ nl) t idx k a)
      (apply_galois (2 ^ nl / 2 ^ k + 1) (entryPoly (2 ^ nl) t idx k a))
      = entryPoly (2 ^ nl) t idx (k + 1) a := by
  have hN : 0 < 2 ^ nl := pow_pos (by norm_num) nl
  have hdiv : 2 ^ nl / 2 ^ k = 2 ^ (nl - k) := Nat.pow_div (le_of_lt hk) (by norm_num)
  have hexp : (2:Nat) ^ (nl - k) = 2 * 2 ^ (nl - k - 1) := by
    have hh : nl - k - 1 + 1 = nl - k := by omega
    conv_lhs => rw [← hh]
    exact pow_succ' 2 (nl - k - 1)
  have helt : (2 ^ nl / 2 ^ k + 1) % 2 = 1 := by
    rw [hdiv, hexp]
    omega
  have hpowkk : (2:Nat) ^ (k + 1) * 2 ^ (nl - k) = 2 * 2 ^ nl := by
    rw [← pow_add, show k + 1 + (nl - k) = nl + 1 by omega]
    exact pow_succ' 2 nl
  have hpowk : (2:Nat) ^ k * 2 ^ (nl - k) = 2 ^ nl := by
    rw [← pow_add, show k + (nl - k) = nl by omega]
  unfold entryPoly
  by_cases h1 : idx % 2 ^ (k + 1) = a % 2 ^ (k + 1)
  · have h0 : idx % 2 ^ k = a % 2 ^ k :=
      Nat.ModEq.of_dvd (pow_dvd_pow 2 (Nat.le_succ k)) h1
    rw [if_pos h0, if_pos h1,
      apply_galois_mulConst, apply_galois_xpow hN _ _ helt]
    obtain ⟨c, hc⟩ : 2 ^ (k + 1) ∣ (2 * 2 ^ nl + idx - a) := by
      have h := E_mod_zero hk ha h1
      exact (Nat.modEq_zero_iff_dvd).mp (by simpa [Nat.ModEq] using h)
    have hmul : (2 * 2 ^ nl + idx - a) * (2 ^ nl / 2 ^ k + 1)
        = c * (2 * 2 ^ nl) + (2 * 2 ^ nl + idx - a) := by
      rw [hdiv]
      calc (2 * 2 ^ nl + idx - a) * (2 ^ (nl - k) + 1)
          = (2 * 2 ^ nl + idx - a) * 2 ^ (nl - k) + (2 * 2 ^ nl + idx - a) := by
            ring
        _ = c * (2 * 2 ^ nl) + (2 * 2 ^ nl + idx - a) := by
            rw [hc, show 2 ^ (k + 1) * c * 2 ^ (nl - k)
              = c * (2 ^ (k + 1) * 2 ^ (nl - k)) by ring, hpowkk]
    rw [hmul, xpow_mul_c2N, polyAdd_mulConst_same]
    push_cast [pow_succ]
    ring
  · by_cases h0 : idx % 2 ^ k = a % 2 ^ k
    · rw [if_pos h0, if_neg h1,
        apply_galois_mulConst, apply_galois_xpow hN _ _ helt]
      have hEmod := E_mod_P hk ha h0 h1
      have hc' : 2 * 2 ^ nl + idx - a
          = 2 ^ (k + 1) * ((2 * 2 ^ nl + idx - a) / 2 ^ (k + 1)) + 2 ^ k := by
        conv_lhs => rw [← Nat.div_add_mod (2 * 2 ^ nl + idx - a) (2 ^ (k + 1))]
        rw [hEmod]
      have hmul : (2 * 2 ^ nl + idx - a) * (2 ^ nl / 2 ^ k + 1)
          = ((2 * 2 ^ nl + idx - a) / 2 ^ (k + 1)) * (2 * 2 ^ nl)
            + ((2 * 2 ^ nl + idx - a) + 2 ^ nl) := by
        rw [hdiv]
        calc (2 * 2 ^ nl + idx - a) * (2 ^ (nl - k) + 1)
            = (2 * 2 ^ nl + idx - a) * 2 ^ (nl - k) + (2 * 2 ^ nl + idx - a) := by
              ring
          _ = (2 ^ (k + 1) * ((2 * 2 ^ nl + idx - a) / 2 ^ (k + 1)) + 2 ^ k)
                * 2 ^ (nl - k) + (2 * 2 ^ nl + idx - a) := by
              rw [← hc']
          _ = ((2 * 2 ^ nl + idx - a) / 2 ^ (k + 1))
                * (2 ^ (k + 1) * 2 ^ (nl - k))
              + 2 ^ k * 2 ^ (nl - k) + (2 * 2 ^ nl + idx - a) := by
              ring
          _ = ((2 * 2 ^ nl + idx - a) / 2 ^ (k + 1)) * (2 * 2 ^ nl)
              + ((2 * 2 ^ nl + idx - a) + 2 ^ nl) := by
              rw [hpowkk, hpowk]
              ring
      rw [hmul, xpow_mul_c2N, xpow_add_N hN, mulConst_mulConst,
        polyAdd_mulConst_same,
        show ((2 ^ k : Nat) : ZMod t) + ((2 ^ k : Nat) : ZMod t) * (-1) = 0 by
          ring]
      exact mulConst_zero_c _
    · rw [if_neg h0, if_neg h1, apply_galois_zero, polyAdd_zero_zero]

/-- One expansion level, second child: the shifted combination carries the invariant entry from slot `a` at level `k` to slot `2^k + a` at level `k + 1`. -/
theorem step_second {nl t : Nat} (idx k a : Nat) (hk : k < nl) (ha : a < 2 ^ k) :
    polyAdd
      (multiply_power_of_X (2 * 2 ^ nl - 2 ^ k) (entryPoly (2 ^ nl) t idx k a))
      (multiply_power_of_X
        (((2 * 2 ^ nl - 2 ^ k) * (2 ^ nl / 2 ^ k + 1)) % (2 * 2 ^ nl))
        (apply_galois (2 ^ nl / 2 ^ k + 1) (entryPoly (2 ^ nl) t idx k a)))
      = entryPoly (2 ^ nl) t idx (k + 1) (2 ^ k + a) := by
  have hN : 0 < 2 ^ nl := pow_pos (by norm_num) nl
  have hdiv : 2 ^ nl / 2 ^ k = 2 ^ (nl - k) := Nat.pow_div (le_of_lt hk) (by norm_num)
  have hexp : (2:Nat) ^ (nl - k) = 2 * 2 ^ (nl - k - 1) := by
    have hh : nl - k - 1 + 1 = nl - k := by omega
    conv_lhs => rw [← hh]
    exact pow_succ' 2 (nl - k - 1)
  have helt : (2 ^ nl / 2 ^ k + 1) % 2 = 1 := by
    rw [hdiv, hexp]
    omega
  have hpowkk : (2:Nat) ^ (k + 1) * 2 ^ (nl - k) = 2 * 2 ^ nl := by
    rw [← pow_add, show k + 1 + (nl - k) = nl + 1 by omega]
    exact pow_succ' 2 nl
  have hpowk : (2:Nat) ^ k * 2 ^ (nl - k) = 2 ^ nl := by
    rw [← pow_add, show k + (nl - k) = nl by omega]
  have hklN : (2:Nat) ^ k ≤ 2 ^ nl := Nat.pow_le_pow_right (by norm_num) (le_of_lt hk)
  have hsucc : (2:Nat) ^ (k + 1) = 2 * 2 ^ k := pow_succ' 2 k
  have hQ1 : (1:Nat) ≤ 2 ^ (nl - k) := Nat.one_le_two_pow
  have hB : (2:Nat) ^ nl ≤ 2 ^ nl * 2 ^ (nl - k) :=
    Nat.le_mul_of_pos_right _ (by omega)
  have hiRawElt : (2 * 2 ^ nl - 2 ^ k) * (2 ^ nl / 2 ^ k + 1)
      = (2 ^ (nl - k) - 1) * (2 * 2 ^ nl) + ((2 * 2 ^ nl - 2 ^ k) + 2 ^ nl) := by
    rw [hdiv, Nat.mul_add, Nat.mul_one, Nat.sub_mul, Nat.sub_mul, hpowk,
      show 2 * 2 ^ nl * 2 ^ (nl - k) = 2 * (2 ^ nl * 2 ^ (nl - k)) by ring,
      show 2 ^ (nl - k) * (2 * 2 ^ nl) = 2 * (2 ^ nl * 2 ^ (nl - k)) by ring,
      Nat.one_mul]
    omega
  have hmpx_entry : ∀ (i : Nat) (c0 : ZMod t) (e : Nat),
      multiply_power_of_X (N := 2 ^ nl) (t := t) i (mulConst c0 (xpow (2 ^ nl) t e))
        = mulConst c0 (xpow (2 ^ nl) t (e + i)) := by
    intro i c0 e
    rw [multiply_power_of_X_mulConst, multiply_power_of_X_xpow hN]
  have hindex : ∀ e : Nat,
      xpow (2 ^ nl) t (e + ((2 * 2 ^ nl - 2 ^ k) * (2 ^ nl / 2 ^ k + 1)) % (2 * 2 ^ nl))
        = xpow (2 ^ nl) t (e + ((2 * 2 ^ nl - 2 ^ k) + 2 ^ nl)) := by
    intro e
    have h1 : xpow (2 ^ nl) t
        (e + ((2 * 2 ^ nl - 2 ^ k) * (2 ^ nl / 2 ^ k + 1)) % (2 * 2 ^ nl))
        = xpow (2 ^ nl) t (e + (2 * 2 ^ nl - 2 ^ k) * (2 ^ nl / 2 ^ k + 1)) := by
      apply xpow_congr
      rw [Nat.add_mod, Nat.mod_mod_of_dvd _ (dvd_refl (2 * 2 ^ nl)), ← Nat.add_mod]
    rw [h1, hiRawElt, show e + ((2 ^ (nl - k) - 1) * (2 * 2 ^ nl)
        + ((2 * 2 ^ nl - 2 ^ k) + 2 ^ nl))
      = (2 ^ (nl - k) - 1) * (2 * (2 ^ nl)) + (e + ((2 * 2 ^ nl - 2 ^ k) + 2 ^ nl))
      by ring]
    rw [xpow_mul_c2N]
  unfold entryPoly
  by_cases h1 : idx % 2 ^ (k + 1) = a % 2 ^ (k + 1)
  · have h0 : idx % 2 ^ k = a % 2 ^ k :=
      Nat.ModEq.of_dvd (pow_dvd_pow 2 (Nat.le_succ k)) h1
    have hcondF : ¬ (idx % 2 ^ (k + 1) = (2 ^ k + a) % 2 ^ (k + 1)) := by
      intro hcond
      have hchain : (2 ^ k + a) % 2 ^ (k + 1) = a % 2 ^ (k + 1) := by
        rw [← hcond, h1]
      have hcancel := Nat.ModEq.add_right_cancel' a
        (show (2 ^ k + a) % 2 ^ (k + 1) = (0 + a) % 2 ^ (k + 1) by
          rw [hchain, Nat.zero_add])
      have hdvd : (2:Nat) ^ (k + 1) ∣ 2 ^ k :=
        (Nat.modEq_zero_iff_dvd).mp hcancel
      have hle := Nat.le_of_dvd (by omega) hdvd
      omega
    rw [if_pos h0, if_neg hcondF,
      apply_galois_mulConst, apply_galois_xpow hN _ _ helt]
    obtain ⟨c, hc⟩ : 2 ^ (k + 1) ∣ (2 * 2 ^ nl + idx - a) := by
      have h := E_mod_zero hk ha h1
      exact (Nat.modEq_zero_iff_dvd).mp (by simpa [Nat.ModEq] using h)
    have hmul : (2 * 2 ^ nl + idx - a) * (2 ^ nl / 2 ^ k + 1)
        = c * (2 * 2 ^ nl) + (2 * 2 ^ nl + idx - a) := by
      rw [hdiv]
      calc (2 * 2 ^ nl + idx - a) * (2 ^ (nl - k) + 1)
          = (2 * 2 ^ nl + idx - a) * 2 ^ (nl - k) + (2 * 2 ^ nl + idx - a) := by
            ring
        _ = c * (2 * 2 ^ nl) + (2 * 2 ^ nl + idx - a) := by
            rw [hc, show 2 ^ (k + 1) * c * 2 ^ (nl - k)
              = c * (2 ^ (k + 1) * 2 ^ (nl - k)) by ring, hpowkk]
    rw [hmul, xpow_mul_c2N, hmpx_entry, hmpx_entry, hindex,
      show (2 * 2 ^ nl + idx - a) + ((2 * 2 ^ nl - 2 ^ k) + 2 ^ nl)
        = ((2 * 2 ^ nl + idx - a) + (2 * 2 ^ nl - 2 ^ k)) + 2 ^ nl by ring,
      xpow_add_N hN, mulConst_mulConst, polyAdd_mulConst_same,
      show ((2 ^ k : Nat) : ZMod t) + ((2 ^ k : Nat) : ZMod t) * (-1) = 0 by ring]
    exact mulConst_zero_c _
  · by_cases h0 : idx % 2 ^ k = a % 2 ^ k
    · have hcondT : idx % 2 ^ (k + 1) = (2 ^ k + a) % 2 ^ (k + 1) := by
        have h1' : idx % (2 * 2 ^ k) ≠ a % (2 * 2 ^ k) := by
          rw [← hsucc]
          exact h1
        have haP : a % (2 * 2 ^ k) = a := Nat.mod_eq_of_lt (by omega)
        rcases mod2_cases (2 ^ k) idx a (by omega) h0 h1' with hA | hB
        · rw [hsucc, hA, haP, Nat.mod_eq_of_lt (by omega)]
          omega
        · exfalso
          have hidxlt : idx % (2 * 2 ^ k) < 2 * 2 ^ k := Nat.mod_lt _ (by omega)
          omega
      rw [if_pos h0, if_pos hcondT,
        apply_galois_mulConst, apply_galois_xpow hN _ _ helt]
      have hEmod := E_mod_P hk ha h0 h1
      have hc' : 2 * 2 ^ nl + idx - a
          = 2 ^ (k + 1) * ((2 * 2 ^ nl + idx - a) / 2 ^ (k + 1)) + 2 ^ k := by
        conv_lhs => rw [← Nat.div_add_mod (2 * 2 ^ nl + idx - a) (2 ^ (k + 1))]
        rw [hEmod]
      have hmul : (2 * 2 ^ nl + idx - a) * (2 ^ nl / 2 ^ k + 1)
          = ((2 * 2 ^ nl + idx - a) / 2 ^ (k + 1)) * (2 * 2 ^ nl)
            + ((2 * 2 ^ nl + idx - a) + 2 ^ nl) := by
        rw [hdiv]
        calc (2 * 2 ^ nl + idx - a) * (2 ^ (nl - k) + 1)
            = (2 * 2 ^ nl + idx - a) * 2 ^ (nl - k) + (2 * 2 ^ nl + idx - a) := by
              ring
          _ = (2 ^ (k + 1) * ((2 * 2 ^ nl + idx - a) / 2 ^ (k + 1)) + 2 ^ k)
                * 2 ^ (nl - k) + (2 * 2 ^ nl + idx - a) := by
              rw [← hc']
          _ = ((2 * 2 ^ nl + idx - a) / 2 ^ (k + 1))
                * (2 ^ (k + 1) * 2 ^ (nl - k))
              + 2 ^ k * 2 ^ (nl - k) + (2 * 2 ^ nl + idx - a) := by
              ring
          _ = ((2 * 2 ^ nl + idx - a) / 2 ^ (k + 1)) * (2 * 2 ^ nl)
              + ((2 * 2 ^ nl + idx - a) + 2 ^ nl) := by
              rw [hpowkk, hpowk]
              ring
      rw [hmul, xpow_mul_c2N, hmpx_entry, hmpx_entry, hindex,
        show 2 * 2 ^ nl + idx - a + 2 ^ nl + (2 * 2 ^ nl - 2 ^ k + 2 ^ nl)
          = 1 * (2 * 2 ^ nl) + (2 * 2 ^ nl + idx - a + (2 * 2 ^ nl - 2 ^ k))
          from by ring,
        xpow_mul_c2N, polyAdd_mulConst_same,
        show 2 * 2 ^ nl + idx - a + (2 * 2 ^ nl - 2 ^ k)
          = 1 * (2 * 2 ^ nl) + (2 * 2 ^ nl + idx - (2 ^ k + a)) from by omega,
        xpow_mul_c2N]
      push_cast [hsucc]
      ring
    · have hcondF2 : ¬ (idx % 2 ^ (k + 1) = (2 ^ k + a) % 2 ^ (k + 1)) := by
        intro hcond
        have hdesc : idx % 2 ^ k = (2 ^ k + a) % 2 ^ k :=
          Nat.ModEq.of_dvd (pow_dvd_pow 2 (Nat.le_succ k)) hcond
        rw [Nat.add_mod_left] at hdesc
        exact h0 hdesc
      rw [if_neg h0, if_neg hcondF2, apply_galois_zero,
        multiply_power_of_X_zero, multiply_power_of_X_zero, polyAdd_zero_zero]

/-- Scaling by one is the identity. -/
theorem mulConst_one {N t : Nat} (p : Poly N t) : mulConst (1 : ZMod t) p = p := by
  funext k
  unfold mulConst
  ring

/-- Scaling the zero polynomial gives zero. -/
theorem mulConst_zero_p {N t : Nat} (c : ZMod t) :
    mulConst c (zeroPoly N t) = zeroPoly N t := by
  funext k
  unfold mulConst zeroPoly
  ring

/-- The invariant list at level zero is the single query monomial `x^idx`. -/
theorem expectedList_zero {nl t : Nat} (idx : Nat) :
    expectedList (2 ^ nl) t idx 0 = [xpow (2 ^ nl) t idx] := by
  unfold expectedList
  rw [pow_zero, show List.range 1 = [0] from rfl, List.map_cons, List.map_nil]
  congr 1
  unfold entryPoly
  rw [pow_zero, if_pos (by rw [Nat.mod_one, Nat.mod_one]), Nat.cast_one, mulConst_one,
    Nat.sub_zero]
  exact xpow_congr (Nat.add_mod_left (2 * 2 ^ nl) idx)

/-- Indexing the invariant list below its length yields the invariant entry. -/
theorem expectedList_getD {N t : Nat} (idx k a : Nat) (ha : a < 2 ^ k) (d : Poly N t) :
    (expectedList N t idx k).getD a d = entryPoly N t idx k a := by
  have hlen : a < (expectedList N t idx k).length := by
    simpa [expectedList] using ha
  rw [List.getD_eq_getElem _ _ hlen]
  simp [expectedList]

/-- One full level of `expand_query` maps the level-`k` invariant list to the level-`k+1` invariant list. -/
theorem expandLevelStep_expected {nl t : Nat} (idx k : Nat) (hk : k < nl) :
    expandLevelStep (N := 2 ^ nl) (t := t) (2 ^ nl / 2 ^ k + 1) (2 * 2 ^ nl - 2 ^ k)
        (((2 * 2 ^ nl - 2 ^ k) * (2 ^ nl / 2 ^ k + 1)) % (2 * 2 ^ nl))
        (expectedList (2 ^ nl) t idx k)
      = expectedList (2 ^ nl) t idx (k + 1) := by
  unfold expandLevelStep
  conv_rhs => rw [expectedList, show (2:Nat) ^ (k + 1) = 2 ^ k + 2 ^ k from by
    rw [pow_succ]; omega]
  rw [List.range_add, List.map_append]
  unfold expectedList
  rw [List.map_map, List.map_map, List.map_map]
  congr 1
  · apply List.map_congr_left
    intro a ha
    have ha' : a < 2 ^ k := List.mem_range.mp ha
    simp only [Function.comp_apply]
    exact step_first idx k a hk ha'
  · apply List.map_congr_left
    intro a ha
    have ha' : a < 2 ^ k := List.mem_range.mp ha
    simp only [Function.comp_apply]
    exact step_second idx k a hk ha'

/-- The main expansion loop, run for `fuel` levels from level `k`, carries the invariant list to level `k + fuel` and never hits the fallible accesses while the levels stay under `logm`. -/
theorem expandLoop_expected {nl t : Nat} (idx L : Nat) (hLnl : L ≤ nl) :
    ∀ fuel k, k + fuel ≤ L →
      expandLoop (2 ^ nl) t ((List.range L).map fun i => (2 ^ nl + 2 ^ i) / 2 ^ i)
        fuel k (expectedList (2 ^ nl) t idx k)
        = some (expectedList (2 ^ nl) t idx (k + fuel)) := by
  intro fuel
  induction fuel with
  | zero =>
    intro k _
    simp [expandLoop]
  | succ fuel ih =>
    intro k hkf
    have hk : k < L := by omega
    rw [expandLoop]
    rw [List.getElem?_map, List.getElem?_range hk]
    simp only [Option.map_some', Option.some_bind]
    rw [show (2 ^ nl + 2 ^ k) / 2 ^ k = 2 ^ nl / 2 ^ k + 1 from
      Nat.add_div_right _ (pow_pos (by norm_num) k)]
    simp only [Option.bind_eq_bind, Option.some_bind]
    rw [expandLevelStep_expected idx k (by omega)]
    rw [ih (k + 1) (by omega)]
    congr 2
    omega

/-- Auxiliary: the fuelled ceiling log is an upper bound exponent when the fuel suffices. -/
theorem le_pow_clog2Aux (n : Nat) :
    ∀ fuel k, n ≤ 2 ^ (k + fuel) → n ≤ 2 ^ clog2Aux fuel k n := by
  intro fuel
  induction fuel with
  | zero =>
    intro k h
    simpa [clog2Aux] using h
  | succ fuel ih =>
    intro k h
    simp only [clog2Aux]
    by_cases hnk : n ≤ 2 ^ k
    · rw [if_pos hnk]
      exact hnk
    · rw [if_neg hnk]
      exact ih (k + 1) (by rw [show k + 1 + fuel = k + (fuel + 1) from by omega]; exact h)

/-- `n ≤ 2 ^ clog2 n`. -/
theorem le_pow_clog2 (n : Nat) : n ≤ 2 ^ clog2 n :=
  le_pow_clog2Aux n n 0 (by simpa using Nat.le_of_lt (Nat.lt_two_pow n))

/-- Auxiliary: the fuelled ceiling log never overshoots a valid exponent. -/
theorem clog2Aux_le (n j : Nat) (hj : n ≤ 2 ^ j) :
    ∀ fuel k, k ≤ j → clog2Aux fuel k n ≤ j := by
  intro fuel
  induction fuel with
  | zero =>
    intro k h
    simpa [clog2Aux] using h
  | succ fuel ih =>
    intro k hkj
    simp only [clog2Aux]
    by_cases hnk : n ≤ 2 ^ k
    · rw [if_pos hnk]
      exact hkj
    · rw [if_neg hnk]
      have hkj' : k < j := by
        by_contra hc
        have : j ≤ k := by omega
        exact hnk (le_trans hj (Nat.pow_le_pow_right (by norm_num) this))
      exact ih (k + 1) (by omega)

/-- `clog2` is the least valid exponent: `n ≤ 2^j` gives `clog2 n ≤ j`. -/
theorem clog2_le {n j : Nat} (hj : n ≤ 2 ^ j) : clog2 n ≤ j :=
  clog2Aux_le n j hj n 0 (Nat.zero_le j)

/-- Auxiliary: the fuelled ceiling log's predecessor power stays below `n`. -/
theorem clog2Aux_min (n : Nat) :
    ∀ fuel k, (k = 0 ∨ 2 ^ (k - 1) < n) →
      (clog2Aux fuel k n = 0 ∨ 2 ^ (clog2Aux fuel k n - 1) < n) := by
  intro fuel
  induction fuel with
  | zero =>
    intro k h
    simpa [clog2Aux] using h
  | succ fuel ih =>
    intro k h
    simp only [clog2Aux]
    by_cases hnk : n ≤ 2 ^ k
    · rw [if_pos hnk]
      exact h
    · rw [if_neg hnk]
      exact ih (k + 1) (Or.inr (by simpa using Nat.lt_of_not_le hnk))

/-- `clog2 n ≥ 1` for `n ≥ 2`. -/
theorem clog2_pos {n : Nat} (hn : 2 ≤ n) : 1 ≤ clog2 n := by
  by_contra h
  have h0 : clog2 n = 0 := by omega
  have hle := le_pow_clog2 n
  rw [h0, pow_zero] at hle
  omega

/-- `2 ^ (clog2 n - 1) < n` for `n ≥ 2`: `clog2` is exact. -/
theorem pow_clog2_pred_lt {n : Nat} (hn : 2 ≤ n) : 2 ^ (clog2 n - 1) < n := by
  rcases clog2Aux_min n n 0 (Or.inl rfl) with h | h
  · exfalso
    have hle := le_pow_clog2 n
    have h0 : clog2 n = 0 := h
    rw [h0, pow_zero] at hle
    omega
  · exact h

/-- The corner slot of the last expansion level: doubling the level-`k` entry equals the level-`k+1` entry when the slot index is at least `m - 2^k`. -/
theorem mulConst_two_entry {N t : Nat} (idx m K a : Nat) (hidx : idx < m)
    (hmle : m ≤ 2 ^ (K + 1)) (hma : m - 2 ^ K ≤ a) (ha : a < 2 ^ K) :
    mulConst (2 : ZMod t) (entryPoly N t idx K a) = entryPoly N t idx (K + 1) a := by
  unfold entryPoly
  by_cases h0 : idx % 2 ^ K = a % 2 ^ K
  · have hKpos : 0 < 2 ^ K := pow_pos (by norm_num) K
    have ha' : a % 2 ^ K = a := Nat.mod_eq_of_lt ha
    have hdm := Nat.div_add_mod idx (2 ^ K)
    have hqlt : idx / 2 ^ K < 2 := by
      apply Nat.div_lt_of_lt_mul
      calc idx < m := hidx
        _ ≤ 2 ^ (K + 1) := hmle
        _ = 2 ^ K * 2 := by rw [pow_succ]
    have hia : idx = a := by
      rcases nat_lt_two_cases hqlt with hq | hq <;> rw [hq] at hdm <;> omega
    subst hia
    rw [if_pos rfl, if_pos rfl, mulConst_mulConst]
    push_cast [pow_succ]
    ring
  · have h1 : ¬ (idx % 2 ^ (K + 1) = a % 2 ^ (K + 1)) := fun hc =>
      h0 (Nat.ModEq.of_dvd (pow_dvd_pow 2 (Nat.le_succ K)) hc)
    rw [if_neg h0, if_neg h1]
    exact mulConst_zero_p _

/-- After the final level the invariant entry collapses to `2^L` at the matching slot and zero elsewhere. -/
theorem entryPoly_final {N t : Nat} (hN : 0 < N) (idx L b : Nat)
    (hidx : idx < 2 ^ L) (hb : b < 2 ^ L) :
    entryPoly N t idx L b
      = if idx = b then constPoly N t ((2 ^ L : Nat) : ZMod t) else zeroPoly N t := by
  unfold entryPoly
  rw [Nat.mod_eq_of_lt hidx, Nat.mod_eq_of_lt hb]
  by_cases h : idx = b
  · subst h
    rw [if_pos rfl, if_pos rfl, Nat.add_sub_cancel]
    exact mulConst_xpow_two_N hN _
  · rw [if_neg h, if_neg h]

/-- The special-cased last expansion level followed by truncation to `m` entries produces exactly the `m` expected outputs. -/
theorem expandLastStep_expected {nl t : Nat} (idx m K : Nat)
    (hKnl : K < nl) (hmle : m ≤ 2 ^ (K + 1)) (hKlt : 2 ^ K < m) (hidx : idx < m) :
    (expandLastStep m (K + 1) (2 ^ nl / 2 ^ K + 1) (2 * 2 ^ nl - 2 ^ K)
        (((2 * 2 ^ nl - 2 ^ K) * (2 ^ nl / 2 ^ K + 1)) % (2 * 2 ^ nl))
        (expectedList (2 ^ nl) t idx K)).take m
      = (List.range m).map (fun a =>
          if idx = a then constPoly (2 ^ nl) t ((2 ^ (K + 1) : Nat) : ZMod t)
          else zeroPoly (2 ^ nl) t) := by
  have hN : 0 < 2 ^ nl := pow_pos (by norm_num) nl
  have hlen : (expectedList (2 ^ nl) t idx K).length = 2 ^ K := by
    simp [expectedList]
  unfold expandLastStep
  rw [hlen]
  simp only [Nat.add_sub_cancel]
  have hfirst : (List.range (2 ^ K)).map (fun a =>
      if m - 2 ^ K ≤ a then
        mulConst 2 ((expectedList (2 ^ nl) t idx K).getD a (zeroPoly (2 ^ nl) t))
      else polyAdd ((expectedList (2 ^ nl) t idx K).getD a (zeroPoly (2 ^ nl) t))
        (apply_galois (2 ^ nl / 2 ^ K + 1)
          ((expectedList (2 ^ nl) t idx K).getD a (zeroPoly (2 ^ nl) t))))
      = (List.range (2 ^ K)).map (entryPoly (2 ^ nl) t idx (K + 1)) := by
    apply List.map_congr_left
    intro a ha
    have ha' : a < 2 ^ K := List.mem_range.mp ha
    rw [expectedList_getD idx K a ha']
    by_cases hcond : m - 2 ^ K ≤ a
    · rw [if_pos hcond]
      exact mulConst_two_entry idx m K a hidx hmle hcond ha'
    · rw [if_neg hcond]
      exact step_first idx K a hKnl ha'
  have hsecond : (List.range (2 ^ K)).map (fun a =>
      if m - 2 ^ K ≤ a then zeroPoly (2 ^ nl) t
      else polyAdd (multiply_power_of_X (2 * 2 ^ nl - 2 ^ K)
          ((expectedList (2 ^ nl) t idx K).getD a (zeroPoly (2 ^ nl) t)))
        (multiply_power_of_X
          (((2 * 2 ^ nl - 2 ^ K) * (2 ^ nl / 2 ^ K + 1)) % (2 * 2 ^ nl))
          (apply_galois (2 ^ nl / 2 ^ K + 1)
            ((expectedList (2 ^ nl) t idx K).getD a (zeroPoly (2 ^ nl) t)))))
      = (List.range (2 ^ K)).map (fun a =>
          if m - 2 ^ K ≤ a then zeroPoly (2 ^ nl) t
          else entryPoly (2 ^ nl) t idx (K + 1) (2 ^ K + a)) := by
    apply List.map_congr_left
    intro a ha
    have ha' : a < 2 ^ K := List.mem_range.mp ha
    rw [expectedList_getD idx K a ha']
    by_cases hcond : m - 2 ^ K ≤ a
    · rw [if_pos hcond, if_pos hcond]
    · rw [if_neg hcond, if_neg hcond]
      exact step_second idx K a hKnl ha'
  rw [hfirst, hsecond, List.take_append_eq_append_take]
  rw [List.take_of_length_le (by simp; omega)]
  simp only [List.length_map, List.length_range]
  rw [← List.map_take, List.take_range, Nat.min_eq_left (by omega)]
  conv_rhs => rw [show m = 2 ^ K + (m - 2 ^ K) from by omega]
  rw [List.range_add, List.map_append, List.map_map]
  congr 1
  · apply List.map_congr_left
    intro a ha
    have ha' : a < 2 ^ K := List.mem_range.mp ha
    exact entryPoly_final hN idx (K + 1) a (by omega)
      (by have := Nat.pow_lt_pow_right (a := 2) (by norm_num) (Nat.lt_succ_self K); omega)
  · apply List.map_congr_left
    intro a ha
    have ha' : a < m - 2 ^ K := List.mem_range.mp ha
    simp only [Function.comp_apply]
    rw [if_neg (by omega)]
    exact entryPoly_final hN idx (K + 1) (2 ^ K + a) (by omega) (by omega)

/-- C1: for every dimension size `m` with `2 ≤ m ≤ N` (and `m` within
the `uint32` range) and every index `idx < m`, `expand_query` applied to
the stand-in ciphertext `x^idx` succeeds and returns exactly `m`
ciphertexts in which entry `idx` is the constant `2^ceil(log2 m)` and every
other entry is zero: the claim's count, truncation and zero pattern hold,
but the designated entry represents `2^ceil(log2 m)`, not `m`, and `m = 1`
is excluded because the `uint32` trip count `logm - 1` underflows there. -/
theorem expand_query_correct {nl t : Nat} (idx m : Nat)
    (hm2 : 2 ≤ m) (hmN : m ≤ 2 ^ nl) (hm32 : m ≤ 4294967296) (hidx : idx < m) :
    expand_query (2 ^ nl) t (xpow (2 ^ nl) t idx) m
      = some ((List.range m).map fun a =>
          if idx = a then constPoly (2 ^ nl) t ((2 ^ clog2 m : Nat) : ZMod t)
          else zeroPoly (2 ^ nl) t) := by
  have hN : 0 < 2 ^ nl := pow_pos (by norm_num) nl
  obtain ⟨K, hK⟩ : ∃ K, clog2 m = K + 1 :=
    ⟨clog2 m - 1, by have := clog2_pos hm2; omega⟩
  have hmle : m ≤ 2 ^ (K + 1) := by rw [← hK]; exact le_pow_clog2 m
  have hKlt : 2 ^ K < m := by
    have h := pow_clog2_pred_lt hm2
    rwa [hK, Nat.add_sub_cancel] at h
  have hLnl : K + 1 ≤ nl := by rw [← hK]; exact clog2_le hmN
  have hL32 : K + 1 ≤ 32 := by
    rw [← hK]
    exact clog2_le (le_trans hm32 (by norm_num))
  simp only [expand_query, hK, Nat.add_sub_cancel]
  rw [show (K + 1 + 4294967295) % 4294967296 = K from by omega]
  rw [← expectedList_zero idx]
  rw [expandLoop_expected idx (K + 1) hLnl K 0 (by omega), Nat.zero_add]
  simp only [Option.bind_eq_bind, Option.some_bind]
  rw [List.getElem?_map, List.getElem?_range (Nat.lt_succ_self K)]
  simp only [Option.map_some', Option.some_bind]
  rw [show (2 ^ nl + 2 ^ K) / 2 ^ K = 2 ^ nl / 2 ^ K + 1 from
    Nat.add_div_right _ (pow_pos (by norm_num) K)]
  rw [expandLastStep_expected idx m K (by omega) hmle hKlt hidx]

/-- C1 witness: the correctness theorem instantiated at `N = 4`, `t = 5`,
`m = 3`, `idx = 1`. -/
theorem expand_query_correct_witness :
    2 ≤ 3 ∧ (3:Nat) ≤ 2 ^ 2 ∧ (3:Nat) ≤ 4294967296 ∧ 1 < 3 ∧
    expand_query (2 ^ 2) 5 (xpow (2 ^ 2) 5 1) 3
      = some ((List.range 3).map fun a =>
          if 1 = a then constPoly (2 ^ 2) 5 ((2 ^ clog2 3 : Nat) : ZMod 5)
          else zeroPoly (2 ^ 2) 5) :=
  ⟨by norm_num, by norm_num, by norm_num, by norm_num,
   expand_query_correct 1 3 (by norm_num) (by norm_num) (by norm_num) (by norm_num)⟩

/-- C1 counterexample: at `m = 1` — allowed by the claim's `m ≥ 1` — the
expansion fails outright (the `uint32` trip count `logm - 1` underflows and
the unchecked `galois_elts` access misses), and at `m = 3`, `idx = 0` the
designated entry holds the constant `4 = 2^ceil(log2 3)`, not the claimed
value `m = 3` (`4 ≠ 3` in `Z_5`). -/
theorem expand_query_value_counterexample :
    expand_query 4 5 (xpow 4 5 0) 1 = none ∧
    ((expand_query 4 5 (xpow 4 5 0) 3).getD []).getD 0 (zeroPoly 4 5) (0 : Fin 4)
        = (4 : ZMod 5) ∧
    (4 : ZMod 5) ≠ (3 : ZMod 5) := by
  decide

end SealPIR
